import Mathlib

/-!
Shallow embedding of `sssh.py` (the StupidlySimpleShell repository).

The Python heap is modelled as an association list from numeric node ids to
node records.  Mutation becomes explicit state passing: every operation that
can both mutate and raise returns the post-state together with an optional
error, because a Python exception leaves all mutations performed before the
raise in place.

`pathlib.PurePosixPath` is modelled by `PyPath`: an absolute flag plus the
list of components.  Parsing a string splits on `/` and drops empty and `"."`
chunks, exactly as `pathlib` does (so `Path("")` is `Path(".")` and `"."`
never appears among `parts`, while `".."` does).
-/

set_option autoImplicit false

/-- Error kinds raised by the Python code.  `attributeError`, `valueError` and
`keyError` are the builtin Python exceptions that can escape (e.g.
`LeafNode.get_child` does not exist, unpacking an empty `parts` tuple,
`set.remove` on a missing element). -/
inductive Err where
  | duplicateNodeName (name : String)
  | nodeDoesNotExist (name : String)
  | invalidPath (msg : String)
  | attributeError (msg : String)
  | valueError
  | keyError (msg : String)
deriving DecidableEq, Repr

instance {ε α : Type} [DecidableEq ε] [DecidableEq α] : DecidableEq (Except ε α) := fun x y =>
  match x, y with
  | Except.ok a, Except.ok b =>
    if h : a = b then Decidable.isTrue (by rw [h])
    else Decidable.isFalse (fun hc => h (Except.ok.inj hc))
  | Except.error a, Except.error b =>
    if h : a = b then Decidable.isTrue (by rw [h])
    else Decidable.isFalse (fun hc => h (Except.error.inj hc))
  | Except.ok _, Except.error _ => Decidable.isFalse (fun hc => Except.noConfusion hc)
  | Except.error _, Except.ok _ => Decidable.isFalse (fun hc => Except.noConfusion hc)

/-- Directory-like (`Node`) versus file-like (`LeafNode`). -/
inductive NodeKind where
  | dir
  | leaf
deriving DecidableEq, Repr

instance : BEq NodeKind := ⟨fun a b => decide (a = b)⟩

/-- One Python node object.  `children` is only populated for `dir` nodes
(`LeafNode` has no `_children` attribute); `data` and `callbacks` are only
used by `leaf` nodes.  Callbacks are opaque and identified by numbers. -/
structure FSNode where
  name : String
  parent : Option Nat
  kind : NodeKind
  children : List Nat
  data : Option String
  callbacks : List Nat
deriving DecidableEq, Repr

/-- The heap of a `Filesystem`: id-indexed nodes, the root id, and the next
fresh id. -/
structure FS where
  nodes : List (Nat × FSNode)
  root : Nat
  nextId : Nat
deriving DecidableEq, Repr

def lookupL : List (Nat × FSNode) → Nat → Option FSNode
  | [], _ => none
  | (j, n) :: t, i => if i = j then some n else lookupL t i

def lookupN (fs : FS) (i : Nat) : Option FSNode :=
  lookupL fs.nodes i

def updateL : List (Nat × FSNode) → Nat → FSNode → List (Nat × FSNode)
  | [], _, _ => []
  | (j, m) :: t, i, n => if i = j then (j, n) :: t else (j, m) :: updateL t i n

def updateN (fs : FS) (i : Nat) (n : FSNode) : FS :=
  { fs with nodes := updateL fs.nodes i n }

def nodeNameOf (fs : FS) (i : Nat) : String :=
  match lookupN fs i with
  | some n => n.name
  | none => ""

def childrenOf (fs : FS) (i : Nat) : List Nat :=
  match lookupN fs i with
  | some n => n.children
  | none => []

def parentOf (fs : FS) (i : Nat) : Option Nat :=
  match lookupN fs i with
  | some n => n.parent
  | none => none

/-- Model of `pathlib.PurePosixPath`. -/
structure PyPath where
  absolute : Bool
  comps : List String
deriving DecidableEq, Repr

/-- Split a character list on `/`. -/
def splitOnSlash : List Char → List Char → List (List Char)
  | [], cur => [cur.reverse]
  | c :: rest, cur =>
    if c = '/' then cur.reverse :: splitOnSlash rest []
    else splitOnSlash rest (c :: cur)

/-- `pathlib.Path(s)`: absolute iff the string starts with `/`; empty and `"."`
chunks are dropped during parsing (so `Path("") = Path(".")`). -/
def strToPath (s : String) : PyPath :=
  let cs := s.toList
  let abs : Bool := match cs with
    | '/' :: _ => true
    | _ => false
  let raw := (splitOnSlash cs []).map (fun l => String.mk l)
  ⟨abs, raw.filter (fun t => !(t == "") && !(t == "."))⟩

/-- `Path.parts`: the root marker `/` followed by the components. -/
def PyPath.parts (p : PyPath) : List String :=
  if p.absolute then "/" :: p.comps else p.comps

/-- `Path.name`: the final component (empty for `/` and `.`). -/
def PyPath.nameStr (p : PyPath) : String :=
  p.comps.getLastD ""

/-- `Path.parent`: drop the final component (the parent of `/` is `/`, the
parent of a single relative component is `.`). -/
def PyPath.parentDir (p : PyPath) : PyPath :=
  ⟨p.absolute, p.comps.dropLast⟩

/-- `Path.root`: `"/"` for an absolute path, `""` otherwise. -/
def PyPath.rootStr (p : PyPath) : String :=
  if p.absolute then "/" else ""

/-- `p / q` for paths: an absolute right operand replaces the left one. -/
def PyPath.div (p q : PyPath) : PyPath :=
  if q.absolute then q else ⟨p.absolute, p.comps ++ q.comps⟩

/-- `p / s` where `s` is a string (parsed by `pathlib` before joining). -/
def PyPath.divStr (p : PyPath) (s : String) : PyPath :=
  p.div (strToPath s)

/-- Membership test of `NodeSet.__contains__` restricted to the name form:
true iff some member node's current name equals `nm`. -/
def childNameMatches (fs : FS) (cid : Nat) (nm : String) : Bool :=
  match lookupN fs cid with
  | some c => c.name == nm
  | none => false

def nsContains (fs : FS) (children : List Nat) (nm : String) : Bool :=
  children.any (fun c => childNameMatches fs c nm)

/-- `NodeSet.get`: the first member whose name equals `nm`. -/
def nsGet (fs : FS) (children : List Nat) (nm : String) : Except Err Nat :=
  match children.find? (fun c => childNameMatches fs c nm) with
  | some c => Except.ok c
  | none => Except.error (Err.nodeDoesNotExist nm)

/-- Remove the first member whose name matches, returning it and the rest. -/
def nsRemoveList (fs : FS) : List Nat → String → Option (Nat × List Nat)
  | [], _ => none
  | c :: t, nm =>
    if childNameMatches fs c nm then some (c, t)
    else (nsRemoveList fs t nm).map (fun r => (r.1, c :: r.2))

/-- `NodeSet.remove` on the set owned by `owner`. -/
def nsRemove (fs : FS) (owner : Nat) (nm : String) : FS × Except Err Nat :=
  match lookupN fs owner with
  | none => (fs, Except.error (Err.attributeError "owner"))
  | some ow =>
    match nsRemoveList fs ow.children nm with
    | none => (fs, Except.error (Err.nodeDoesNotExist nm))
    | some r => (updateN fs owner { ow with children := r.2 }, Except.ok r.1)

/-- `NodeSet.add` on the set owned by `owner`. -/
def nsAdd (fs : FS) (owner : Nat) (cid : Nat) : FS × Option Err :=
  match lookupN fs owner, lookupN fs cid with
  | some ow, some cn =>
    if nsContains fs ow.children cn.name then
      (fs, some (Err.duplicateNodeName cn.name))
    else
      (updateN fs owner { ow with children := ow.children ++ [cid] }, none)
  | _, _ => (fs, some (Err.attributeError "add"))

/-- Overwrite the `parent` back-reference only. -/
def setParentPtr (fs : FS) (i : Nat) (p : Option Nat) : FS :=
  match lookupN fs i with
  | some n => updateN fs i { n with parent := p }
  | none => fs

/-- `AbstractNode.set_parent`: detach from the old parent's NodeSet (by the
node's current name), insert into the new parent's NodeSet, and only then
overwrite the back-reference.  An exception from either collection operation
aborts before `self._parent` is assigned, exactly as in the source. -/
def setParent (fs : FS) (i : Nat) (newp : Option Nat) : FS × Option Err :=
  match lookupN fs i with
  | none => (fs, some (Err.attributeError "node"))
  | some n =>
    let step1 : FS × Option Err :=
      match n.parent with
      | some op =>
        match nsRemove fs op n.name with
        | (fs1, Except.error e) => (fs1, some e)
        | (fs1, Except.ok _) => (fs1, none)
      | none => (fs, none)
    match step1 with
    | (fs1, some e) => (fs1, some e)
    | (fs1, none) =>
      match newp with
      | some p =>
        match nsAdd fs1 p i with
        | (fs2, some e) => (fs2, some e)
        | (fs2, none) => (setParentPtr fs2 i newp, none)
      | none => (setParentPtr fs1 i newp, none)

/-- `Node(...)` / `LeafNode(...)` construction: allocate the object with no
parent yet, then run `set_parent(parent)` as `__init__` does. -/
def newNode (fs : FS) (nm : String) (parent : Option Nat) (kind : NodeKind)
    (data : Option String) : FS × Except Err Nat :=
  let i := fs.nextId
  let fs1 : FS :=
    { fs with
      nodes := (i, { name := nm, parent := none, kind := kind, children := [],
                     data := data, callbacks := [] }) :: fs.nodes
      nextId := i + 1 }
  match setParent fs1 i parent with
  | (fs2, some e) => (fs2, Except.error e)
  | (fs2, none) => (fs2, Except.ok i)

/-- `node.get_child(name)`.  A `LeafNode` has no `get_child` attribute, which
in Python is an `AttributeError`, not a `NodeDoesNotExistError`. -/
def getChild (fs : FS) (i : Nat) (nm : String) : Except Err Nat :=
  match lookupN fs i with
  | none => Except.error (Err.attributeError "get_child")
  | some n =>
    match n.kind with
    | NodeKind.leaf => Except.error (Err.attributeError "get_child")
    | NodeKind.dir => nsGet fs n.children nm

def rootNameOf (fs : FS) : String :=
  nodeNameOf fs fs.root

def walkChildren (fs : FS) : Except Err Nat → List String → Except Err Nat
  | acc, [] => acc
  | Except.error e, _ :: _ => Except.error e
  | Except.ok i, part :: rest => walkChildren fs (getChild fs i part) rest

/-- `Filesystem.get_node`: unpack `root, *parts = path.parts` (a `ValueError`
if `parts` is empty), start at the root node (or its child named like the
first part), then walk the remaining components via `get_child`. -/
def fsGetNode (fs : FS) (p : PyPath) : Except Err Nat :=
  match p.parts with
  | [] => Except.error Err.valueError
  | r :: rest =>
    let start := if r = rootNameOf fs then Except.ok fs.root else getChild fs fs.root r
    walkChildren fs start rest

/-- `Node.remove_child`: look the child up by name, then `set_parent(None)`. -/
def removeChild (fs : FS) (i : Nat) (nm : String) : FS × Except Err Nat :=
  match lookupN fs i with
  | none => (fs, Except.error (Err.attributeError "remove_child"))
  | some n =>
    match nsGet fs n.children nm with
    | Except.error e => (fs, Except.error e)
    | Except.ok cid =>
      match setParent fs cid none with
      | (fs1, some e) => (fs1, Except.error e)
      | (fs1, none) => (fs1, Except.ok cid)

/-- `source.name = target_path.name` inside `move_node`: a bare attribute
assignment that bypasses every NodeSet check. -/
def renameNode (fs : FS) (i : Nat) (nm : String) : FS :=
  match lookupN fs i with
  | some n => updateN fs i { n with name := nm }
  | none => fs

/-- The tail of `Filesystem.move_node`: the `isinstance(target, Node)` check
followed by `source.set_parent(target)`. -/
def moveFinish (fs : FS) (src tgt : Nat) : FS × Option Err :=
  match lookupN fs tgt with
  | some tn =>
    if tn.kind == NodeKind.dir then setParent fs src (some tgt)
    else (fs, some (Err.invalidPath "Invalid target node"))
  | none => (fs, some (Err.invalidPath "Invalid target node"))

/-- `Filesystem.move_node`.  Only `NodeDoesNotExistError` is converted to
`InvalidPathError`; any other exception — in particular the
`DuplicateNodeNameError` out of `set_parent` — propagates unchanged.  In the
rename branch `source.name` is overwritten before reparenting and is never
restored. -/
def fsMoveNode (fs : FS) (sp tp : PyPath) : FS × Option Err :=
  if sp.nameStr = "" then (fs, some (Err.invalidPath "Invalid source"))
  else if tp.nameStr = "" then (fs, some (Err.invalidPath "Invalid target"))
  else
    match fsGetNode fs sp with
    | Except.error (Err.nodeDoesNotExist _) =>
      (fs, some (Err.invalidPath "Source does not exist"))
    | Except.error e => (fs, some e)
    | Except.ok src =>
      match fsGetNode fs tp with
      | Except.ok tgt => moveFinish fs src tgt
      | Except.error (Err.nodeDoesNotExist _) =>
        match fsGetNode fs tp.parentDir with
        | Except.ok tgt => moveFinish (renameNode fs src tp.nameStr) src tgt
        | Except.error (Err.nodeDoesNotExist _) =>
          (fs, some (Err.invalidPath "Target does not exist"))
        | Except.error e => (fs, some e)
      | Except.error e => (fs, some e)

/-- One step of `AbstractNode.get_path`'s `while` loop, fuel-bounded. -/
def getPathAux (fs : FS) : Nat → Nat → PyPath → PyPath
  | 0, _, acc => acc
  | fuel + 1, i, acc =>
    match lookupN fs i with
    | none => acc
    | some n =>
      match n.parent with
      | none => acc
      | some p => getPathAux fs fuel p ((strToPath (nodeNameOf fs p)).div acc)

/-- `AbstractNode.get_path`: start from the node's own name and prepend the
name of each ancestor while a parent exists. -/
def getPath (fs : FS) (i : Nat) : PyPath :=
  getPathAux fs fs.nodes.length i (strToPath (nodeNameOf fs i))

/-- Shell session state: the filesystem, the current-directory id, and a log
of callback invocations `(callback, path-argument)` in execution order. -/
structure Shell where
  fs : FS
  cwd : Nat
  log : List (Nat × PyPath)
deriving DecidableEq, Repr

def rootNode : FSNode :=
  { name := "/", parent := none, kind := NodeKind.dir, children := [],
    data := none, callbacks := [] }

def freshFS : FS :=
  { nodes := [(0, rootNode)], root := 0, nextId := 1 }

/-- `StupidlySimpleShell()`: a fresh tree with the cwd at the root. -/
def freshShell : Shell :=
  { fs := freshFS, cwd := 0, log := [] }

/-- `StupidlySimpleShell.pwd`: `self._cwd.get_path()`. -/
def shellPwd (sh : Shell) : PyPath :=
  getPath sh.fs sh.cwd

/-- The `del parts[idx]` / `del parts[idx - 1]` loop of `resolve_path`,
including Python's live-list `enumerate` semantics (the internal index
advances even after deletions) and negative indexing (`idx - 1 = -1` when
`idx = 0` deletes the last element). -/
def collapseAux : Nat → Nat → List String → List String
  | 0, _, parts => parts
  | fuel + 1, idx, parts =>
    if idx < parts.length then
      let part := parts.getD idx ""
      if part = "." then collapseAux fuel (idx + 1) (parts.eraseIdx idx)
      else if part = ".." then
        let p1 := parts.eraseIdx idx
        let p2 :=
          if p1.isEmpty then p1
          else if idx = 0 then p1.dropLast
          else p1.eraseIdx (idx - 1)
        collapseAux fuel (idx + 1) p2
      else collapseAux fuel (idx + 1) parts
    else parts

/-- The `"." in parts or ".." in parts` branch of `resolve_path`: collapse,
then reassemble by re-parsing the root string and joining each part. -/
def collapsePhase (root : String) (parts : List String) (path : PyPath) : PyPath :=
  if parts.contains "." || parts.contains ".." then
    let parts1 := collapseAux (parts.length + 1) 0 parts
    parts1.foldl (fun a part => a.divStr part) (strToPath root)
  else path

def resolveCore (sh : Shell) (root : String) (parts : List String)
    (path : PyPath) : Except Err PyPath :=
  if root ≠ rootNameOf sh.fs then
    let path1 := (shellPwd sh).div path
    match path1.parts with
    | [] => Except.error Err.valueError
    | r1 :: rest1 => Except.ok (collapsePhase r1 rest1 path1)
  else Except.ok (collapsePhase root parts path)

/-- `StupidlySimpleShell.resolve_path`.  `parts` can only be empty for the
empty relative path, whose string form is `"."`, so the `InvalidPathError`
in the `ValueError` handler is mirrored but never reachable. -/
def resolvePath (sh : Shell) (p : PyPath) : Except Err PyPath :=
  match p.parts with
  | [] =>
    if p.absolute || !p.comps.isEmpty then Except.error (Err.invalidPath "resolve")
    else resolveCore sh "." [] p
  | r :: rest => resolveCore sh r rest p

/-- `LeafNode.execute_callbacks`: compute `get_path()` once, then invoke every
registered callback with it (appended to the shell's invocation log). -/
def executeCallbacks (fs : FS) (nid : Nat) (log : List (Nat × PyPath)) :
    List (Nat × PyPath) :=
  let path := getPath fs nid
  match lookupN fs nid with
  | some n => log ++ n.callbacks.map (fun cb => (cb, path))
  | none => log

/-- `cd`: `NodeDoesNotExistError` is converted to `InvalidPathError`, and the
target must be directory-like. -/
def shellCd (sh : Shell) (s : String) : Shell × Option Err :=
  match resolvePath sh (strToPath s) with
  | Except.error e => (sh, some e)
  | Except.ok p =>
    match fsGetNode sh.fs p with
    | Except.error (Err.nodeDoesNotExist _) => (sh, some (Err.invalidPath "cd"))
    | Except.error e => (sh, some e)
    | Except.ok nid =>
      match lookupN sh.fs nid with
      | some n =>
        if n.kind == NodeKind.dir then ({ sh with cwd := nid }, none)
        else (sh, some (Err.invalidPath "Not a directory"))
      | none => (sh, some (Err.invalidPath "Not a directory"))

/-- The `parents=True` loop of `mkdir`: walk `path.parts[1:]`, creating any
missing component, and fail if an existing component is not a directory. -/
def mkdirLoop (fs : FS) : Nat → List String → FS × Option Err
  | _, [] => (fs, none)
  | nid, part :: rest =>
    match getChild fs nid part with
    | Except.ok c =>
      match lookupN fs c with
      | some cn =>
        if cn.kind == NodeKind.dir then mkdirLoop fs c rest
        else (fs, some (Err.invalidPath "mkdir"))
      | none => (fs, some (Err.invalidPath "mkdir"))
    | Except.error (Err.nodeDoesNotExist _) =>
      match newNode fs part (some nid) NodeKind.dir none with
      | (fs1, Except.ok c) => mkdirLoop fs1 c rest
      | (fs1, Except.error e) => (fs1, some e)
    | Except.error e => (fs, some e)

/-- `StupidlySimpleShell.mkdir`. -/
def shellMkdir (sh : Shell) (s : String) (parents : Bool) : Shell × Option Err :=
  match resolvePath sh (strToPath s) with
  | Except.error e => (sh, some e)
  | Except.ok p =>
    if p.nameStr = "" then (sh, some (Err.invalidPath "mkdir"))
    else if !parents then
      match fsGetNode sh.fs p.parentDir with
      | Except.error (Err.nodeDoesNotExist _) =>
        (sh, some (Err.invalidPath "No such directory"))
      | Except.error e => (sh, some e)
      | Except.ok par =>
        match lookupN sh.fs par with
        | some pn =>
          if pn.kind == NodeKind.dir then
            match newNode sh.fs p.nameStr (some par) NodeKind.dir none with
            | (fs1, Except.ok _) => ({ sh with fs := fs1 }, none)
            | (fs1, Except.error (Err.duplicateNodeName _)) =>
              ({ sh with fs := fs1 }, some (Err.invalidPath "Directory already exists"))
            | (fs1, Except.error e) => ({ sh with fs := fs1 }, some e)
          else (sh, some (Err.invalidPath "Not a directory"))
        | none => (sh, some (Err.invalidPath "Not a directory"))
    else
      match fsGetNode sh.fs (strToPath p.rootStr) with
      | Except.error e => (sh, some e)
      | Except.ok nid =>
        match lookupN sh.fs nid with
        | some n =>
          if n.kind == NodeKind.dir then
            match mkdirLoop sh.fs nid (p.parts.drop 1) with
            | (fs1, some e) => ({ sh with fs := fs1 }, some e)
            | (fs1, none) => ({ sh with fs := fs1 }, none)
          else (sh, some (Err.invalidPath "mkdir"))
        | none => (sh, some (Err.invalidPath "mkdir"))

/-- `mv`: resolve both paths, delegate to `Filesystem.move_node`; only
`InvalidPathError` is (re-)raised unchanged, everything else propagates. -/
def shellMv (sh : Shell) (s t : String) : Shell × Option Err :=
  match resolvePath sh (strToPath s) with
  | Except.error e => (sh, some e)
  | Except.ok sp =>
    match resolvePath sh (strToPath t) with
    | Except.error e => (sh, some e)
    | Except.ok tp =>
      match fsMoveNode sh.fs sp tp with
      | (fs1, r) => ({ sh with fs := fs1 }, r)

/-- `touch`. -/
def shellTouch (sh : Shell) (s : String) : Shell × Option Err :=
  match resolvePath sh (strToPath s) with
  | Except.error e => (sh, some e)
  | Except.ok p =>
    if p.nameStr = "" then (sh, some (Err.invalidPath "touch"))
    else
      match fsGetNode sh.fs p.parentDir with
      | Except.error (Err.nodeDoesNotExist _) => (sh, some (Err.invalidPath "touch"))
      | Except.error e => (sh, some e)
      | Except.ok par =>
        match lookupN sh.fs par with
        | some pn =>
          if pn.kind == NodeKind.dir then
            match newNode sh.fs p.nameStr (some par) NodeKind.leaf none with
            | (fs1, Except.ok _) => ({ sh with fs := fs1 }, none)
            | (fs1, Except.error (Err.duplicateNodeName _)) =>
              ({ sh with fs := fs1 }, some (Err.invalidPath "Already exists"))
            | (fs1, Except.error e) => ({ sh with fs := fs1 }, some e)
          else (sh, some (Err.invalidPath "Not a directory"))
        | none => (sh, some (Err.invalidPath "Not a directory"))

/-- `set_data`: the source's `except InvalidPathError: raise err from None`
is an identity on `InvalidPathError` and does not catch the
`NodeDoesNotExistError` that `get_node` actually raises, so that error
escapes unchanged. -/
def shellSetData (sh : Shell) (s v : String) : Shell × Option Err :=
  match resolvePath sh (strToPath s) with
  | Except.error e => (sh, some e)
  | Except.ok p =>
    match fsGetNode sh.fs p with
    | Except.error e => (sh, some e)
    | Except.ok nid =>
      match lookupN sh.fs nid with
      | some n =>
        if n.kind == NodeKind.leaf then
          let fs1 := updateN sh.fs nid { n with data := some v }
          ({ sh with fs := fs1, log := executeCallbacks fs1 nid sh.log }, none)
        else (sh, some (Err.invalidPath "Not a file"))
      | none => (sh, some (Err.invalidPath "Not a file"))

/-- `clear_data`: same shape as `set_data` with the payload reset to none. -/
def shellClearData (sh : Shell) (s : String) : Shell × Option Err :=
  match resolvePath sh (strToPath s) with
  | Except.error e => (sh, some e)
  | Except.ok p =>
    match fsGetNode sh.fs p with
    | Except.error e => (sh, some e)
    | Except.ok nid =>
      match lookupN sh.fs nid with
      | some n =>
        if n.kind == NodeKind.leaf then
          let fs1 := updateN sh.fs nid { n with data := none }
          ({ sh with fs := fs1, log := executeCallbacks fs1 nid sh.log }, none)
        else (sh, some (Err.invalidPath "Not a file"))
      | none => (sh, some (Err.invalidPath "Not a file"))

/-- `rm`: note the `elif`: a directory without `recursive=True` fails before
the root check, and the root check fires for any parentless node. -/
def shellRm (sh : Shell) (s : String) (recursive : Bool) : Shell × Except Err Nat :=
  match resolvePath sh (strToPath s) with
  | Except.error e => (sh, Except.error e)
  | Except.ok p =>
    match fsGetNode sh.fs p with
    | Except.error (Err.nodeDoesNotExist _) => (sh, Except.error (Err.invalidPath "rm"))
    | Except.error e => (sh, Except.error e)
    | Except.ok nid =>
      match lookupN sh.fs nid with
      | none => (sh, Except.error (Err.attributeError "rm"))
      | some n =>
        if n.kind == NodeKind.dir && !recursive then
          (sh, Except.error (Err.invalidPath "Use recursive"))
        else
          match n.parent with
          | none => (sh, Except.error (Err.invalidPath "Cannot remove root"))
          | some par =>
            match removeChild sh.fs par n.name with
            | (fs1, Except.ok c) => ({ sh with fs := fs1 }, Except.ok c)
            | (fs1, Except.error e) => ({ sh with fs := fs1 }, Except.error e)

/-- Code-point lexicographic order, as Python's `sorted` uses on `str`. -/
def charListLe : List Char → List Char → Bool
  | [], _ => true
  | _ :: _, [] => false
  | a :: as, b :: bs =>
    if a.toNat < b.toNat then true
    else if b.toNat < a.toNat then false
    else charListLe as bs

def strLe (a b : String) : Bool :=
  charListLe a.toList b.toList

def insertSorted (x : String) : List String → List String
  | [] => [x]
  | y :: t => if strLe x y then x :: y :: t else y :: insertSorted x t

def sortNames (l : List String) : List String :=
  l.foldr insertSorted []

/-- `ls`: the mismatched `except InvalidPathError` lets
`NodeDoesNotExistError` escape unchanged. -/
def shellLs (sh : Shell) (s : String) : Shell × Except Err (List String) :=
  match resolvePath sh (strToPath s) with
  | Except.error e => (sh, Except.error e)
  | Except.ok p =>
    match fsGetNode sh.fs p with
    | Except.error e => (sh, Except.error e)
    | Except.ok nid =>
      match lookupN sh.fs nid with
      | some n =>
        if n.kind == NodeKind.dir then
          (sh, Except.ok (sortNames (n.children.map (nodeNameOf sh.fs))))
        else (sh, Except.error (Err.invalidPath "Not a directory"))
      | none => (sh, Except.error (Err.invalidPath "Not a directory"))

/-- `watch_file`: register a callback on a leaf (set semantics: duplicates
are ignored). -/
def shellWatchFile (sh : Shell) (s : String) (cb : Nat) : Shell × Option Err :=
  match resolvePath sh (strToPath s) with
  | Except.error e => (sh, some e)
  | Except.ok p =>
    match fsGetNode sh.fs p with
    | Except.error e => (sh, some e)
    | Except.ok nid =>
      match lookupN sh.fs nid with
      | some n =>
        if n.kind == NodeKind.leaf then
          let cbs := if n.callbacks.contains cb then n.callbacks else n.callbacks ++ [cb]
          ({ sh with fs := updateN sh.fs nid { n with callbacks := cbs } }, none)
        else (sh, some (Err.invalidPath "Not a file"))
      | none => (sh, some (Err.invalidPath "Not a file"))

/-- `LeafNode.unwatch` on a node already known to be a leaf: with no
callbacks listed, clear the whole set; otherwise `set.remove` each one
(a missing one raises `KeyError` after the earlier removals took effect). -/
def unwatchLoop (fs : FS) (nid : Nat) : List Nat → FS × Option Err
  | [] => (fs, none)
  | cb :: rest =>
    match lookupN fs nid with
    | some n =>
      if n.callbacks.contains cb then
        unwatchLoop (updateN fs nid { n with callbacks := n.callbacks.erase cb }) nid rest
      else (fs, some (Err.keyError "callback"))
    | none => (fs, some (Err.keyError "callback"))

/-- `unwatch_file`. -/
def shellUnwatchFile (sh : Shell) (s : String) (conns : List Nat) : Shell × Option Err :=
  match resolvePath sh (strToPath s) with
  | Except.error e => (sh, some e)
  | Except.ok p =>
    match fsGetNode sh.fs p with
    | Except.error e => (sh, some e)
    | Except.ok nid =>
      match lookupN sh.fs nid with
      | some n =>
        if n.kind == NodeKind.leaf then
          if conns.isEmpty then
            ({ sh with fs := updateN sh.fs nid { n with callbacks := [] } }, none)
          else
            match unwatchLoop sh.fs nid conns with
            | (fs1, r) => ({ sh with fs := fs1 }, r)
        else (sh, some (Err.invalidPath "Not a file"))
      | none => (sh, some (Err.invalidPath "Not a file"))

/-! ### Heap lemmas -/

theorem lookupL_updateL : ∀ (l : List (Nat × FSNode)) (i : Nat) (n : FSNode) (j : Nat),
    lookupL (updateL l i n) j =
      if j = i then (lookupL l i).map (fun _ => n) else lookupL l j
  | [], i, n, j => by simp only [updateL, lookupL]; split <;> rfl
  | (k, m) :: tl, i, n, j => by
    simp only [updateL, lookupL]
    by_cases hik : i = k <;> by_cases hjk : j = k <;> by_cases hji : j = i <;>
      simp_all [lookupL, lookupL_updateL tl i n j, lookupL_updateL tl i n i]

theorem lookupN_updateN (fs : FS) (i : Nat) (n : FSNode) (j : Nat) :
    lookupN (updateN fs i n) j =
      if j = i then (lookupN fs i).map (fun _ => n) else lookupN fs j :=
  lookupL_updateL fs.nodes i n j

theorem lookupN_updateN_self {fs : FS} {i : Nat} {m : FSNode} (h : lookupN fs i = some m)
    (n : FSNode) : lookupN (updateN fs i n) i = some n := by
  rw [lookupN_updateN, if_pos rfl, h]; rfl

theorem lookupN_updateN_ne (fs : FS) {i j : Nat} (n : FSNode) (h : j ≠ i) :
    lookupN (updateN fs i n) j = lookupN fs j := by
  rw [lookupN_updateN, if_neg h]

theorem updateL_length (l : List (Nat × FSNode)) (i : Nat) (n : FSNode) :
    (updateL l i n).length = l.length := by
  induction l with
  | nil => rfl
  | cons hd tl ih =>
    obtain ⟨k, m⟩ := hd
    simp only [updateL]
    split <;> simp [ih]

theorem updateN_length (fs : FS) (i : Nat) (n : FSNode) :
    (updateN fs i n).nodes.length = fs.nodes.length :=
  updateL_length fs.nodes i n

theorem updateN_root (fs : FS) (i : Nat) (n : FSNode) :
    (updateN fs i n).root = fs.root := rfl

theorem lookupL_mem {l : List (Nat × FSNode)} {i : Nat} {n : FSNode}
    (h : lookupL l i = some n) : (i, n) ∈ l := by
  induction l with
  | nil => simp [lookupL] at h
  | cons hd tl ih =>
    obtain ⟨k, m⟩ := hd
    simp only [lookupL] at h
    by_cases hik : i = k
    · subst hik
      rw [if_pos rfl] at h
      cases h
      exact List.mem_cons_self _ _
    · rw [if_neg hik] at h
      exact List.mem_cons_of_mem _ (ih h)

theorem lookupN_mem {fs : FS} {i : Nat} {n : FSNode} (h : lookupN fs i = some n) :
    (i, n) ∈ fs.nodes :=
  lookupL_mem h

/-! ### NodeSet lemmas -/

theorem nsGet_ok {fs : FS} {ch : List Nat} {nm : String} {c : Nat}
    (h : nsGet fs ch nm = Except.ok c) :
    c ∈ ch ∧ childNameMatches fs c nm = true := by
  unfold nsGet at h
  cases hf : ch.find? (fun c => childNameMatches fs c nm) with
  | none => rw [hf] at h; exact absurd h (by simp)
  | some c0 =>
    rw [hf] at h
    cases h
    exact ⟨List.mem_of_find?_eq_some hf,
      List.find?_some (p := fun x => childNameMatches fs x nm) hf⟩

theorem nsGet_ok_lookup {fs : FS} {ch : List Nat} {nm : String} {c : Nat}
    (h : nsGet fs ch nm = Except.ok c) :
    ∃ n, lookupN fs c = some n ∧ n.name = nm := by
  have h2 := (nsGet_ok h).2
  unfold childNameMatches at h2
  cases hl : lookupN fs c with
  | none => rw [hl] at h2; simp at h2
  | some n =>
    rw [hl] at h2
    exact ⟨n, rfl, by simpa using h2⟩

theorem nsGet_error {fs : FS} {ch : List Nat} {nm : String} {e : Err}
    (h : nsGet fs ch nm = Except.error e) :
    (∀ c ∈ ch, childNameMatches fs c nm = false) ∧ e = Err.nodeDoesNotExist nm := by
  unfold nsGet at h
  cases hf : ch.find? (fun c => childNameMatches fs c nm) with
  | none =>
    rw [hf] at h
    cases h
    exact ⟨fun c hc => by simpa using List.find?_eq_none.1 hf c hc, rfl⟩
  | some c0 => rw [hf] at h; exact absurd h (by simp)

theorem nsGet_mem_ok {fs : FS} {ch : List Nat} {nm : String} {c : Nat}
    (hc : c ∈ ch) (hm : childNameMatches fs c nm = true) :
    ∃ c0, nsGet fs ch nm = Except.ok c0 := by
  unfold nsGet
  cases hf : ch.find? (fun c => childNameMatches fs c nm) with
  | none => exact absurd hm (by simpa using List.find?_eq_none.1 hf c hc)
  | some c0 => exact ⟨c0, rfl⟩

theorem nsRemoveList_none {fs : FS} {ch : List Nat} {nm : String}
    (h : nsRemoveList fs ch nm = none) :
    ∀ c ∈ ch, childNameMatches fs c nm = false := by
  induction ch with
  | nil => intro c hc; simp at hc
  | cons hd tl ih =>
    intro c hc
    unfold nsRemoveList at h
    by_cases hm : childNameMatches fs hd nm
    · rw [if_pos hm] at h; exact absurd h (by simp)
    · rw [if_neg hm] at h
      rcases List.mem_cons.1 hc with hc | hc
      · subst hc; simpa using hm
      · cases hrec : nsRemoveList fs tl nm with
        | none => exact ih hrec c hc
        | some r => rw [hrec] at h; exact absurd h (by simp)

theorem nsRemoveList_some {fs : FS} {ch : List Nat} {nm : String} {r : Nat}
    {rest : List Nat} (h : nsRemoveList fs ch nm = some (r, rest)) :
    ∃ pre post, ch = pre ++ r :: post ∧ rest = pre ++ post ∧
      childNameMatches fs r nm = true ∧
      (∀ c ∈ pre, childNameMatches fs c nm = false) := by
  induction ch generalizing r rest with
  | nil => simp [nsRemoveList] at h
  | cons hd tl ih =>
    unfold nsRemoveList at h
    by_cases hm : childNameMatches fs hd nm
    · rw [if_pos hm] at h
      cases h
      exact ⟨[], tl, rfl, rfl, hm, by simp⟩
    · rw [if_neg hm] at h
      cases hrec : nsRemoveList fs tl nm with
      | none => rw [hrec] at h; exact absurd h (by simp)
      | some r0 =>
        rw [hrec] at h
        obtain ⟨r1, rest1⟩ := r0
        simp only [Option.map_some'] at h
        cases h
        obtain ⟨pre, post, h1, h2, h3, h4⟩ := ih hrec
        refine ⟨hd :: pre, post, by simp [h1], by simp [h2], h3, ?_⟩
        intro c hc
        rcases List.mem_cons.1 hc with hc | hc
        · subst hc; simpa using hm
        · exact h4 c hc

/-! ### Well-formed trees

The structural invariants of a healthy `Filesystem`: unique heap keys,
children/parent consistency in both directions, sibling-name uniqueness
(the NodeSet invariant), leaves own no children, and the root is a
parentless directory named `/`.  All quantifiers range over the node list,
so the predicate is decidable on concrete states. -/
def WfFS (fs : FS) : Prop :=
  (fs.nodes.map Prod.fst).Nodup ∧
  (∀ e ∈ fs.nodes, ∀ j ∈ e.2.children,
      (lookupN fs j).map FSNode.parent = some (some e.1)) ∧
  (∀ e ∈ fs.nodes, ∀ i ∈ e.2.parent.toList, e.1 ∈ childrenOf fs i) ∧
  (∀ e ∈ fs.nodes, (e.2.children.map (nodeNameOf fs)).Nodup) ∧
  (∀ e ∈ fs.nodes, e.2.kind = NodeKind.leaf → e.2.children = []) ∧
  (lookupN fs fs.root).map (fun rn => (rn.parent, rn.kind, rn.name)) =
    some (none, NodeKind.dir, "/")

theorem wf_child_parent {fs : FS} (hw : WfFS fs) {i j : Nat} {ni : FSNode}
    (hi : lookupN fs i = some ni) (hj : j ∈ ni.children) :
    ∃ nj, lookupN fs j = some nj ∧ nj.parent = some i := by
  have h := hw.2.1 (i, ni) (lookupN_mem hi) j hj
  cases hl : lookupN fs j with
  | none => rw [hl] at h; simp at h
  | some nj =>
    rw [hl] at h
    simp only [Option.map_some', Option.some.injEq] at h
    exact ⟨nj, rfl, h⟩

theorem wf_parent_child {fs : FS} (hw : WfFS fs) {i j : Nat} {nj : FSNode}
    (hj : lookupN fs j = some nj) (hp : nj.parent = some i) :
    j ∈ childrenOf fs i := by
  have h := hw.2.2.1 (j, nj) (lookupN_mem hj) i
  exact h (by simp [hp])

theorem wf_sibling_names {fs : FS} (hw : WfFS fs) {i : Nat} {ni : FSNode}
    (hi : lookupN fs i = some ni) :
    (ni.children.map (nodeNameOf fs)).Nodup :=
  hw.2.2.2.1 (i, ni) (lookupN_mem hi)

theorem wf_leaf_no_children {fs : FS} (hw : WfFS fs) {i : Nat} {ni : FSNode}
    (hi : lookupN fs i = some ni) (hk : ni.kind = NodeKind.leaf) :
    ni.children = [] :=
  hw.2.2.2.2.1 (i, ni) (lookupN_mem hi) hk

theorem wf_root {fs : FS} (hw : WfFS fs) :
    ∃ rn, lookupN fs fs.root = some rn ∧ rn.parent = none ∧
      rn.kind = NodeKind.dir ∧ rn.name = "/" := by
  have h := hw.2.2.2.2.2
  cases hl : lookupN fs fs.root with
  | none => rw [hl] at h; simp at h
  | some rn =>
    rw [hl] at h
    simp only [Option.map_some', Option.some.injEq, Prod.mk.injEq] at h
    exact ⟨rn, rfl, h.1, h.2.1, h.2.2⟩

instance (fs : FS) : Decidable (WfFS fs) := by
  unfold WfFS
  infer_instance

/-- Reachability from `a` along children edges. -/
inductive Reach (fs : FS) : Nat → Nat → Prop
  | refl (i : Nat) : Reach fs i i
  | step {i j c : Nat} {nj : FSNode} : Reach fs i j → lookupN fs j = some nj →
      c ∈ nj.children → Reach fs i c

/-- In a well-formed tree a node reached from `a` is either `a` itself or has
a parent that is also reached from `a`. -/
theorem reach_decompose {fs : FS} (hw : WfFS fs) {a x : Nat} (h : Reach fs a x) :
    x = a ∨ ∃ nx p, lookupN fs x = some nx ∧ nx.parent = some p ∧ Reach fs a p := by
  induction h with
  | refl => exact Or.inl rfl
  | step hr hj hc ih =>
    right
    obtain ⟨nc, hnc, hp⟩ := wf_child_parent hw hj hc
    exact ⟨nc, _, hnc, hp, hr⟩

/-! ### Concrete scenario states (built through the shell API) -/

def shA : Shell := (shellMkdir freshShell "/a" false).1

def shAB : Shell := (shellMkdir shA "/b" false).1

/-- Directories `/a` and `/b`, leaves `/a/x` and `/b/x` (ids 1, 2, 3, 4). -/
def shDup : Shell := (shellTouch (shellTouch shAB "/a/x").1 "/b/x").1

/-- Directories `/a` and `/b`, leaves `/a/x` and `/a/y` (ids 1, 2, 3, 4). -/
def shXY : Shell := (shellTouch (shellTouch shAB "/a/x").1 "/a/y").1

/-- C2: refuted on the code.  `move_node("/a/x", "/b/y")` on a healthy tree
with siblings `/a/x`, `/a/y` takes the rename branch: it assigns
`source.name = "y"` while the source is still a member of `/a`'s NodeSet,
so during the move `/a`'s children momentarily hold two entries named `"y"`
— the uniqueness invariant is violated mid-operation.  The first conjunct
shows the move factors through exactly this intermediate state. -/
theorem c2_move_rename_creates_duplicate_sibling_names :
    WfFS shXY.fs ∧
    fsMoveNode shXY.fs (strToPath "/a/x") (strToPath "/b/y") =
      moveFinish (renameNode shXY.fs 3 "y") 3 2 ∧
    fsGetNode shXY.fs (strToPath "/a/x") = Except.ok 3 ∧
    fsGetNode shXY.fs (strToPath "/b")  = Except.ok 2 ∧
    childrenOf (renameNode shXY.fs 3 "y") 1 = [3, 4] ∧
    (childrenOf (renameNode shXY.fs 3 "y") 1).map
      (nodeNameOf (renameNode shXY.fs 3 "y")) = ["y", "y"] ∧
    ¬ ((childrenOf (renameNode shXY.fs 3 "y") 1).map
      (nodeNameOf (renameNode shXY.fs 3 "y"))).Nodup := by
  decide

/-- C3: refuted on the code.  On a healthy tree with `/a/x` and `/b/x`:
`ls` of a missing path raises `NodeDoesNotExistError` unchanged (its
`except InvalidPathError` clause cannot catch it), `set_data` likewise,
and `mv` into a name collision lets `DuplicateNodeNameError` escape the
shell API — the internal NodeSet-level kinds reach the caller. -/
theorem c3_nodeset_errors_escape_shell_api :
    WfFS shDup.fs ∧
    (shellLs shDup "/missing").2 = Except.error (Err.nodeDoesNotExist "missing") ∧
    (shellSetData shDup "/missing" "v").2 = some (Err.nodeDoesNotExist "missing") ∧
    (shellMv shDup "/a/x" "/b").2 = some (Err.duplicateNodeName "x") := by
  decide

/-- C4: refuted on the code.  The collapse loop deletes from the list it is
iterating over, and `del parts[idx - 1]` with `idx = 0` is Python's
negative indexing, deleting the **last** element: `/../a` resolves to `/`
(the spec requires `/a`), and `/a/../../b` leaves a `..` component behind
(the spec requires `/b`).  The spec's own two examples do hold. -/
theorem c4_resolve_path_collapse_diverges_from_spec :
    resolvePath freshShell (strToPath "/../a") = Except.ok ⟨true, []⟩ ∧
    resolvePath freshShell (strToPath "/a/../../b") = Except.ok ⟨true, ["..", "b"]⟩ ∧
    resolvePath freshShell (strToPath "/a/b/../c") = Except.ok ⟨true, ["a", "c"]⟩ ∧
    resolvePath freshShell (strToPath "/..") = Except.ok ⟨true, []⟩ := by
  decide

/-- C6 counterexample: on a healthy tree with `/a/x` and `/b/x`, moving node 3
(`/a/x`) under node 2 (`/b`) fails with a duplicate name, and afterwards the
node is in no NodeSet — but its `parent` attribute still reports the old
parent `/a` (the `self._parent = parent` line was never reached), refuting
the claim that it does not report the old parent. -/
theorem c6_failed_reparent_still_reports_old_parent :
    WfFS shDup.fs ∧
    parentOf shDup.fs 3 = some 1 ∧
    (setParent shDup.fs 3 (some 2)).2 = some (Err.duplicateNodeName "x") ∧
    parentOf (setParent shDup.fs 3 (some 2)).1 3 = some 1 ∧
    nodeNameOf (setParent shDup.fs 3 (some 2)).1 3 = "x" ∧
    (∀ e ∈ (setParent shDup.fs 3 (some 2)).1.nodes, 3 ∉ e.2.children) := by
  decide

/-- C9 counterexample: `pathlib.Path("")` equals `Path(".")`, so the empty
string hits the current-directory branch of `resolve_path` instead of
failing: on a fresh shell it resolves to `/`, and `ls("")` succeeds,
listing the current working directory. -/
theorem c9_empty_path_resolves_to_cwd :
    strToPath "" = strToPath "." ∧
    resolvePath freshShell (strToPath "") = Except.ok ⟨true, []⟩ ∧
    (shellLs shDup "").2 = Except.ok ["a", "b"] := by
  decide

/-! ### Lemmas about NodeSet removal under well-formedness -/

theorem childNameMatches_of_lookup {fs : FS} {c : Nat} {n : FSNode}
    (h : lookupN fs c = some n) : childNameMatches fs c n.name = true := by
  unfold childNameMatches
  rw [h]
  simp

theorem nodeNameOf_of_matches {fs : FS} {c : Nat} {nm : String}
    (h : childNameMatches fs c nm = true) : nodeNameOf fs c = nm := by
  unfold childNameMatches at h
  unfold nodeNameOf
  cases hl : lookupN fs c with
  | none => rw [hl] at h; simp at h
  | some n => rw [hl] at h; simpa using h

theorem nsRemoveList_isSome {fs : FS} {ch : List Nat} {nm : String} {c : Nat}
    (hc : c ∈ ch) (hm : childNameMatches fs c nm = true) :
    ∃ r rest, nsRemoveList fs ch nm = some (r, rest) := by
  cases hr : nsRemoveList fs ch nm with
  | none => exact absurd hm (by simp [nsRemoveList_none hr c hc])
  | some r =>
    obtain ⟨a, b⟩ := r
    exact ⟨a, b, rfl⟩

/-- In a NodeSet with pairwise-distinct member names, removal by the name of
a member `i` removes exactly `i`, and `i` does not occur in the remainder. -/
theorem nsRemoveList_unique {fs : FS} {ch : List Nat} {i : Nat} {ni : FSNode}
    (hnd : (ch.map (nodeNameOf fs)).Nodup) (hi : lookupN fs i = some ni)
    (hmem : i ∈ ch) {r : Nat} {rest : List Nat}
    (h : nsRemoveList fs ch ni.name = some (r, rest)) :
    r = i ∧ rest = ch.erase i ∧ i ∉ rest := by
  obtain ⟨pre, post, hch, hrest, hrm, hpre⟩ := nsRemoveList_some h
  have hinj := List.inj_on_of_nodup_map hnd
  have hri : r = i := by
    have hrmem : r ∈ ch := by rw [hch]; simp
    have : nodeNameOf fs r = nodeNameOf fs i := by
      rw [nodeNameOf_of_matches hrm]
      unfold nodeNameOf
      rw [hi]
    exact hinj hrmem hmem this
  subst hri
  have hipre : r ∉ pre := by
    intro hmem2
    have := hpre r hmem2
    rw [childNameMatches_of_lookup hi] at this
    simp at this
  have hipost : r ∉ post := by
    intro hmem2
    have : ¬ (ch.map (nodeNameOf fs)).Nodup := by
      rw [hch]
      simp only [List.map_append, List.map_cons]
      intro hnd2
      have := List.Nodup.not_mem (List.Nodup.of_append_right hnd2)
      exact this (List.mem_map_of_mem (nodeNameOf fs) hmem2)
    exact this hnd
  constructor
  · rfl
  constructor
  · rw [hch, hrest]
    rw [List.erase_append_right _ hipre]
    simp [List.erase_cons_head]
  · rw [hrest]
    simp only [List.mem_append]
    rintro (h | h)
    · exact hipre h
    · exact hipost h


/-! ### Inversion lemmas for the mutation operations -/

theorem nsRemove_error_state {fs fs1 : FS} {ow : Nat} {nm : String} {e : Err}
    (h : nsRemove fs ow nm = (fs1, Except.error e)) :
    fs1 = fs ∧ (e = Err.attributeError "owner" ∨ e = Err.nodeDoesNotExist nm) := by
  unfold nsRemove at h
  split at h
  · cases h
    exact ⟨rfl, Or.inl rfl⟩
  · split at h
    · cases h
      exact ⟨rfl, Or.inr rfl⟩
    · cases h

theorem nsRemove_ok_state {fs fs1 : FS} {ow r : Nat} {nm : String}
    (h : nsRemove fs ow nm = (fs1, Except.ok r)) :
    ∃ own rest, lookupN fs ow = some own ∧
      nsRemoveList fs own.children nm = some (r, rest) ∧
      fs1 = updateN fs ow { own with children := rest } := by
  unfold nsRemove at h
  cases hlo : lookupN fs ow with
  | none => rw [hlo] at h; cases h
  | some own =>
    rw [hlo] at h
    dsimp only at h
    cases hrm : nsRemoveList fs own.children nm with
    | none => rw [hrm] at h; dsimp only at h; cases h
    | some r0 =>
      obtain ⟨a, b⟩ := r0
      rw [hrm] at h
      dsimp only at h
      cases h
      exact ⟨own, b, rfl, hrm, rfl⟩

theorem nsAdd_error_state {fs fs2 : FS} {ow cid : Nat} {e : Err}
    (h : nsAdd fs ow cid = (fs2, some e)) : fs2 = fs := by
  unfold nsAdd at h
  split at h
  · split at h
    · cases h
      rfl
    · cases h
  · cases h
    rfl

theorem nsAdd_ok_state {fs fs2 : FS} {ow cid : Nat}
    (h : nsAdd fs ow cid = (fs2, none)) :
    ∃ own cn, lookupN fs ow = some own ∧ lookupN fs cid = some cn ∧
      nsContains fs own.children cn.name = false ∧
      fs2 = updateN fs ow { own with children := own.children ++ [cid] } := by
  unfold nsAdd at h
  split at h
  · rename_i own cn hlo hlc
    split at h
    · cases h
    · rename_i hdup
      cases h
      exact ⟨own, cn, hlo, hlc, by simpa using hdup, rfl⟩
  · cases h

/-- Inversion of `set_parent(some p)` failing with a duplicate name: the node
exists, the detach step already ran (removing one same-named member from the
old parent's NodeSet, if there was an old parent), and nothing else changed. -/
theorem setParent_dup_inversion {fs fs' : FS} {i p : Nat} {m : String}
    (h : setParent fs i (some p) = (fs', some (Err.duplicateNodeName m))) :
    ∃ ni, lookupN fs i = some ni ∧
      ((ni.parent = none ∧ fs' = fs) ∨
        ∃ op nop r rest, ni.parent = some op ∧ lookupN fs op = some nop ∧
          nsRemoveList fs nop.children ni.name = some (r, rest) ∧
          fs' = updateN fs op { nop with children := rest }) := by
  unfold setParent at h
  split at h
  · cases h
  · rename_i ni hni
    dsimp only at h
    refine ⟨ni, hni, ?_⟩
    cases hpar : ni.parent with
    | none =>
      rw [hpar] at h
      dsimp only at h
      cases hadd : nsAdd fs p i with
      | mk fs2 r2 =>
        rw [hadd] at h
        cases r2 with
        | none => dsimp only at h; cases h
        | some e =>
          dsimp only at h
          cases h
          exact Or.inl ⟨rfl, nsAdd_error_state hadd⟩
    | some op =>
      rw [hpar] at h
      dsimp only at h
      cases hrem : nsRemove fs op ni.name with
      | mk fs1 res =>
        rw [hrem] at h
        cases res with
        | error e =>
          dsimp only at h
          cases h
          rcases (nsRemove_error_state hrem).2 with he | he <;> cases he
        | ok r =>
          dsimp only at h
          cases hadd : nsAdd fs1 p i with
          | mk fs2 r2 =>
            rw [hadd] at h
            cases r2 with
            | none => dsimp only at h; cases h
            | some e =>
              dsimp only at h
              cases h
              obtain ⟨own, rest, hlo, hrm, hfs1⟩ := nsRemove_ok_state hrem
              refine Or.inr ⟨op, own, r, rest, rfl, hlo, hrm, ?_⟩
              rw [← hfs1]
              exact nsAdd_error_state hadd

/-- C6 amended: when `set_parent(new_parent)` fails with a DuplicateName
error on a well-formed tree, the node is afterwards a member of no NodeSet,
but its `name` and its `parent` attribute are untouched — in particular it
still reports the old parent instead of being fully detached. -/
theorem c6_amended_failed_reparent_detaches_membership_only
    {fs fs' : FS} {i p : Nat} {m : String}
    (hw : WfFS fs)
    (hfail : setParent fs i (some p) = (fs', some (Err.duplicateNodeName m))) :
    (lookupN fs' i).map FSNode.name = (lookupN fs i).map FSNode.name ∧
    (lookupN fs' i).map FSNode.parent = (lookupN fs i).map FSNode.parent ∧
    ∀ j nj, lookupN fs' j = some nj → i ∉ nj.children := by
  obtain ⟨ni, hi, hcase⟩ := setParent_dup_inversion hfail
  rcases hcase with ⟨hpar, rfl⟩ | ⟨op, nop, r, rest, hpar, hopl, hrm, rfl⟩
  · refine ⟨rfl, rfl, ?_⟩
    intro j nj hj hmem
    obtain ⟨ni2, hni2, hp2⟩ := wf_child_parent hw hj hmem
    rw [hi] at hni2
    cases hni2
    rw [hpar] at hp2
    exact Option.noConfusion hp2
  · have hmem : i ∈ nop.children := by
      have h := wf_parent_child hw hi hpar
      unfold childrenOf at h
      rw [hopl] at h
      exact h
    obtain ⟨hri, hrest, hnot⟩ :=
      nsRemoveList_unique (wf_sibling_names hw hopl) hi hmem hrm
    have hninop : i = op → ni = nop := by
      intro hiop
      rw [hiop] at hi
      rw [hi] at hopl
      exact Option.some.inj hopl
    have hlk : ∀ j : Nat, lookupN (updateN fs op { nop with children := rest }) j =
        if j = op then some { nop with children := rest } else lookupN fs j := by
      intro j
      rw [lookupN_updateN, hopl]
      split <;> rfl
    refine ⟨?_, ?_, ?_⟩
    · rw [hlk i]
      by_cases hiop : i = op
      · rw [if_pos hiop, hi, hninop hiop]
        rfl
      · rw [if_neg hiop]
    · rw [hlk i]
      by_cases hiop : i = op
      · rw [if_pos hiop, hi, hninop hiop]
        rfl
      · rw [if_neg hiop]
    · intro j nj hj hmem2
      rw [hlk j] at hj
      by_cases hjop : j = op
      · rw [if_pos hjop] at hj
        cases hj
        exact hnot hmem2
      · rw [if_neg hjop] at hj
        obtain ⟨ni2, hni2, hp2⟩ := wf_child_parent hw hj hmem2
        rw [hi] at hni2
        cases hni2
        rw [hpar] at hp2
        exact hjop (Option.some.inj hp2).symm

/-- C6 witness: the amended theorem applied to the concrete failed move of
`/a/x` under `/b` (which already owns an `x`). -/
theorem c6_amended_witness :
    (lookupN (setParent shDup.fs 3 (some 2)).1 3).map FSNode.name =
      (lookupN shDup.fs 3).map FSNode.name ∧
    (lookupN (setParent shDup.fs 3 (some 2)).1 3).map FSNode.parent =
      (lookupN shDup.fs 3).map FSNode.parent ∧
    ∀ j nj, lookupN (setParent shDup.fs 3 (some 2)).1 j = some nj → 3 ∉ nj.children := by
  exact c6_amended_failed_reparent_detaches_membership_only (by decide)
    (show setParent shDup.fs 3 (some 2) =
      ((setParent shDup.fs 3 (some 2)).1, some (Err.duplicateNodeName "x")) by decide)

/-- C9 amended: the empty string is `pathlib`-canonicalized to `.` and
resolves to the current working directory without any error, provided the
cwd's path is an ordinary absolute path (true whenever the cwd is attached
to the tree). -/
theorem c9_amended_empty_path_acts_as_dot (sh : Shell)
    (hroot : rootNameOf sh.fs = "/")
    (habs : (shellPwd sh).absolute = true)
    (hdot : "." ∉ (shellPwd sh).comps)
    (hdd : ".." ∉ (shellPwd sh).comps) :
    resolvePath sh (strToPath "") = Except.ok (shellPwd sh) := by
  have h0 : resolvePath sh (strToPath "") = resolveCore sh "." [] ⟨false, []⟩ := rfl
  rw [h0]
  unfold resolveCore
  rw [hroot, if_pos (by decide)]
  have hdiv : (shellPwd sh).div ⟨false, []⟩ = shellPwd sh := by
    unfold PyPath.div
    simp
  rw [hdiv]
  dsimp only
  have hparts : (shellPwd sh).parts = "/" :: (shellPwd sh).comps := by
    unfold PyPath.parts
    rw [habs]
    simp
  rw [hparts]
  dsimp only
  unfold collapsePhase
  have hc1 : (shellPwd sh).comps.contains "." = false := by simpa using hdot
  have hc2 : (shellPwd sh).comps.contains ".." = false := by simpa using hdd
  rw [hc1, hc2]
  simp

/-- C9 witness: on a fresh shell the empty path resolves to the root. -/
theorem c9_amended_witness :
    resolvePath freshShell (strToPath "") = Except.ok (shellPwd freshShell) :=
  c9_amended_empty_path_acts_as_dot freshShell (by decide) (by decide)
    (by decide) (by decide)

/-! ### Parent chains and `get_path` -/

/-- `UpChainT fs t i names`: following parent references from `i` reaches the
parentless node `t`, and `names` lists the node names from `t` down to `i`. -/
inductive UpChainT (fs : FS) : Nat → Nat → List String → Prop
  | top {i : Nat} {n : FSNode} : lookupN fs i = some n → n.parent = none →
      UpChainT fs i i [n.name]
  | cons {t i p : Nat} {n : FSNode} {names : List String} :
      lookupN fs i = some n → n.parent = some p → UpChainT fs t p names →
      UpChainT fs t i (names ++ [n.name])

theorem upChainT_ne_nil {fs : FS} {t i : Nat} {names : List String}
    (h : UpChainT fs t i names) : names ≠ [] := by
  cases h with
  | top _ _ => simp
  | cons _ _ _ => simp

theorem upChainT_last {fs : FS} {t i : Nat} {names : List String}
    (h : UpChainT fs t i names) :
    ∃ n, lookupN fs i = some n ∧ names.getLast? = some n.name := by
  cases h with
  | top hl hp => exact ⟨_, hl, rfl⟩
  | cons hl hp hc => exact ⟨_, hl, by simp⟩

/-- Reassembly of `get_path`'s accumulation: join a list of name strings from
the left onto an accumulator path. -/
def joinAll (l : List String) (acc : PyPath) : PyPath :=
  l.foldr (fun nm a => (strToPath nm).div a) acc

theorem joinAll_append (l1 l2 : List String) (acc : PyPath) :
    joinAll (l1 ++ l2) acc = joinAll l1 (joinAll l2 acc) := by
  unfold joinAll
  rw [List.foldr_append]

/-- The `while self.parent` loop of `get_path` computes exactly the joined
ancestor names, given enough fuel. -/
theorem getPathAux_chain {fs : FS} {t i : Nat} {names : List String}
    (h : UpChainT fs t i names) :
    ∀ fuel, names.length ≤ fuel + 1 → ∀ acc,
      getPathAux fs fuel i acc = joinAll names.dropLast acc := by
  induction h with
  | top hl hp =>
    intro fuel _ acc
    cases fuel with
    | zero => rfl
    | succ f =>
      unfold getPathAux
      rw [hl]
      dsimp only
      rw [hp]
      rfl
  | cons hl hp hc ih =>
    intro fuel hlen acc
    rename_i i2 p n names
    have hnn : names ≠ [] := upChainT_ne_nil hc
    have hlen1 : 1 ≤ names.length := by
      cases names with
      | nil => exact absurd rfl hnn
      | cons a l => simp
    cases fuel with
    | zero =>
      exfalso
      have h1 : names.length + 1 ≤ 1 := by simpa using hlen
      omega
    | succ f =>
      unfold getPathAux
      rw [hl]
      dsimp only
      rw [hp]
      dsimp only
      obtain ⟨np, hnp, hlast⟩ := upChainT_last hc
      have hname : nodeNameOf fs p = np.name := by
        unfold nodeNameOf
        rw [hnp]
      have hlen2 : names.length ≤ f + 1 := by
        have h1 : names.length + 1 ≤ f + 2 := by simpa using hlen
        omega
      rw [hname, ih f hlen2]
      have hsplit : names.dropLast ++ [np.name] = names :=
        List.dropLast_append_getLast? np.name hlast
      calc joinAll names.dropLast ((strToPath np.name).div acc)
          = joinAll names.dropLast (joinAll [np.name] acc) := rfl
        _ = joinAll (names.dropLast ++ [np.name]) acc := (joinAll_append _ _ _).symm
        _ = joinAll names acc := by rw [hsplit]
        _ = joinAll ((names ++ [n.name]).dropLast) acc := by
            rw [List.dropLast_concat]

theorem joinAll_singles {l : List String}
    (hv : ∀ nm ∈ l, strToPath nm = PyPath.mk false [nm]) :
    ∀ cs : List String, joinAll l (PyPath.mk false cs) = PyPath.mk false (l ++ cs) := by
  induction l with
  | nil => intro cs; rfl
  | cons hd tl ih =>
    intro cs
    unfold joinAll
    simp only [List.foldr_cons]
    have htl := ih (fun nm h => hv nm (List.mem_cons_of_mem hd h)) cs
    unfold joinAll at htl
    rw [htl, hv hd (List.mem_cons_self hd tl)]
    unfold PyPath.div
    simp

/-- `get_path` along a recorded parent chain. -/
theorem getPath_chain {fs : FS} {t i : Nat} {names : List String}
    (h : UpChainT fs t i names) (hlen : names.length ≤ fs.nodes.length + 1) :
    ∃ nm, names.getLast? = some nm ∧
      getPath fs i = joinAll names.dropLast (strToPath nm) := by
  obtain ⟨n, hl, hlast⟩ := upChainT_last h
  refine ⟨n.name, hlast, ?_⟩
  unfold getPath
  have hname : nodeNameOf fs i = n.name := by
    unfold nodeNameOf
    rw [hl]
  rw [hname, getPathAux_chain h fs.nodes.length hlen]

/-- C10: after an ancestor of the current working directory has been removed
with `rm(..., recursive=True)`, `pwd` still succeeds: it walks the remaining
parent chain of the (now detached) cwd and returns the relative-looking path
made of those names, starting with the detached subtree root's name instead
of the root marker `/` — no detachment error is raised. -/
theorem c10_pwd_after_ancestor_removal {sh0 sh : Shell} {s : String} {rid d : Nat}
    {names : List String}
    (_hrm : shellRm sh0 s true = (sh, Except.ok rid))
    (hchain : UpChainT sh.fs d sh.cwd names)
    (hvalid : ∀ nm ∈ names, strToPath nm = PyPath.mk false [nm])
    (hlen : names.length ≤ sh.fs.nodes.length + 1) :
    shellPwd sh = PyPath.mk false names := by
  obtain ⟨nm, hlast, hgp⟩ := getPath_chain hchain hlen
  unfold shellPwd
  rw [hgp]
  have hnm : nm ∈ names := List.mem_of_mem_getLast? (by rw [hlast]; rfl)
  rw [hvalid nm hnm]
  rw [joinAll_singles (fun x hx => hvalid x (List.mem_of_mem_dropLast hx)) [nm]]
  have : names.dropLast ++ [nm] = names := List.dropLast_append_getLast? nm (by rw [hlast]; rfl)
  rw [this]

/-- The C10 scenario: `mkdir /a`, `mkdir /a/b`, `cd /a/b`. -/
def shU : Shell :=
  (shellCd (shellMkdir (shellMkdir freshShell "/a" false).1 "/a/b" false).1 "/a/b").1

/-- The record of the detached directory `a` after the removal. -/
def nodeA10 : FSNode :=
  { name := "a", parent := none, kind := NodeKind.dir, children := [2],
    data := none, callbacks := [] }

/-- The record of the still-attached child directory `b`. -/
def nodeB10 : FSNode :=
  { name := "b", parent := some 1, kind := NodeKind.dir, children := [],
    data := none, callbacks := [] }

/-- C10 witness: after `rm("/a", recursive=True)` the shell's `pwd` returns
the dangling relative path `a/b`. -/
theorem c10_witness : shellPwd (shellRm shU "/a" true).1 = PyPath.mk false ["a", "b"] := by
  have hch1 : UpChainT (shellRm shU "/a" true).1.fs 1 1 ["a"] :=
    UpChainT.top
      (show lookupN (shellRm shU "/a" true).1.fs 1 = some nodeA10 by decide) rfl
  have hch : UpChainT (shellRm shU "/a" true).1.fs 1 2 (["a"] ++ ["b"]) :=
    UpChainT.cons
      (show lookupN (shellRm shU "/a" true).1.fs 2 = some nodeB10 by decide) rfl hch1
  exact c10_pwd_after_ancestor_removal
    (show shellRm shU "/a" true = ((shellRm shU "/a" true).1, Except.ok 1) by decide)
    hch (by decide) (by decide)

/-! ### Walking down the tree: `get_node` -/

theorem walk_error (fs : FS) (e : Err) (l : List String) :
    walkChildren fs (Except.error e) l = Except.error e := by
  cases l <;> rfl

theorem walk_nil (fs : FS) (acc : Except Err Nat) :
    walkChildren fs acc [] = acc := by
  cases acc <;> rfl

theorem walk_append (fs : FS) (acc : Except Err Nat) (l1 l2 : List String) :
    walkChildren fs acc (l1 ++ l2) =
      walkChildren fs (walkChildren fs acc l1) l2 := by
  induction l1 generalizing acc with
  | nil => rw [walk_nil, List.nil_append]
  | cons hd tl ih =>
    cases acc with
    | error e => rw [walk_error, walk_error, walk_error]
    | ok i =>
      rw [List.cons_append]
      rw [show walkChildren fs (Except.ok i) (hd :: (tl ++ l2)) =
        walkChildren fs (getChild fs i hd) (tl ++ l2) from rfl]
      rw [ih]
      rw [show walkChildren fs (Except.ok i) (hd :: tl) =
        walkChildren fs (getChild fs i hd) tl from rfl]

theorem rootNameOf_wf {fs : FS} (hw : WfFS fs) : rootNameOf fs = "/" := by
  obtain ⟨rn, hrl, _, _, hrn⟩ := wf_root hw
  unfold rootNameOf nodeNameOf
  rw [hrl]
  dsimp only
  exact hrn

/-- In a well-formed tree, `get_child` on a node's parent, queried with the
node's name, returns exactly that node. -/
theorem getChild_attached {fs : FS} (hw : WfFS fs) {p i : Nat} {n np : FSNode}
    (hi : lookupN fs i = some n) (hp : n.parent = some p)
    (hnp : lookupN fs p = some np) :
    getChild fs p n.name = Except.ok i := by
  have hmem : i ∈ np.children := by
    have h := wf_parent_child hw hi hp
    unfold childrenOf at h
    rw [hnp] at h
    exact h
  have hkind : np.kind = NodeKind.dir := by
    cases hk : np.kind with
    | dir => rfl
    | leaf =>
      have := wf_leaf_no_children hw hnp hk
      rw [this] at hmem
      exact absurd hmem (List.not_mem_nil i)
  obtain ⟨c0, hc0⟩ := nsGet_mem_ok hmem (childNameMatches_of_lookup hi)
  obtain ⟨hc0mem, hc0m⟩ := nsGet_ok hc0
  have hci : c0 = i := by
    refine List.inj_on_of_nodup_map (wf_sibling_names hw hnp) hc0mem hmem ?_
    rw [nodeNameOf_of_matches hc0m]
    unfold nodeNameOf
    rw [hi]
  unfold getChild
  rw [hnp]
  dsimp only
  rw [hkind]
  rw [hc0, hci]

/-- A parent chain that tops out at the root starts with the root's name
`/`, and walking the remaining names down from the root with `get_child`
lands back on the chain's bottom node. -/
theorem rootChain_walk {fs : FS} (hw : WfFS fs) {t i : Nat} {names : List String}
    (h : UpChainT fs t i names) :
    t = fs.root → ∃ dns, names = "/" :: dns ∧
      walkChildren fs (Except.ok fs.root) dns = Except.ok i := by
  induction h with
  | top hl hp =>
    intro ht
    subst ht
    obtain ⟨rn, hrl, _, _, hrn⟩ := wf_root hw
    rw [hrl] at hl
    cases hl
    exact ⟨[], by rw [hrn], rfl⟩
  | cons hl hp hc ih =>
    intro ht
    subst ht
    obtain ⟨dns, hnames, hwalk⟩ := ih rfl
    obtain ⟨np, hnp, _⟩ := upChainT_last hc
    refine ⟨dns ++ [_], by rw [hnames]; rfl, ?_⟩
    rw [walk_append, hwalk]
    rw [show walkChildren fs (Except.ok _) [_] =
      walkChildren fs (getChild fs _ _) [] from rfl]
    rw [getChild_attached hw hl hp hnp]
    rfl

/-- C5: for every node attached to the root by a chain of parent references
in a well-formed tree (ordinary component names), `get_node (get_path N)`
returns exactly `N`. -/
theorem c5_get_node_get_path_roundtrip {fs : FS} {n : Nat} {names : List String}
    (hw : WfFS fs)
    (hchain : UpChainT fs fs.root n names)
    (hvalid : ∀ nm ∈ names.drop 1, strToPath nm = PyPath.mk false [nm])
    (hlen : names.length ≤ fs.nodes.length + 1) :
    fsGetNode fs (getPath fs n) = Except.ok n := by
  obtain ⟨nm, hlast, hgp⟩ := getPath_chain hchain hlen
  obtain ⟨dns, hnames, hwalk⟩ := rootChain_walk hw hchain rfl
  have hsplit : names.dropLast ++ [nm] = names :=
    List.dropLast_append_getLast? nm (by rw [hlast]; rfl)
  have hroot : rootNameOf fs = "/" := rootNameOf_wf hw
  cases hdns : dns with
  | nil =>
    -- the chain is just the root itself
    subst hdns
    rw [hnames] at hgp hsplit hlast
    have hnm : "/" = nm := by simpa using hlast
    have hgp2 : getPath fs n = PyPath.mk true [] := by
      rw [hgp, ← hnm]
      rfl
    rw [hgp2]
    unfold fsGetNode
    rw [show (PyPath.mk true []).parts = ["/"] from rfl]
    dsimp only
    rw [if_pos hroot.symm]
    exact hwalk
  | cons d0 rest =>
    subst hdns
    rw [hnames] at hgp hsplit
    rw [show ("/" :: (d0 :: rest)).dropLast = "/" :: (d0 :: rest).dropLast from rfl]
      at hgp hsplit
    have hdns2 : (d0 :: rest).dropLast ++ [nm] = d0 :: rest := by
      simpa using hsplit
    have hnmmem : nm ∈ d0 :: rest := by
      rw [← hdns2]
      simp
    have hvnm : strToPath nm = PyPath.mk false [nm] := by
      apply hvalid
      rw [hnames]
      simpa using hnmmem
    have hvdrop : ∀ x ∈ (d0 :: rest).dropLast, strToPath x = PyPath.mk false [x] := by
      intro x hx
      apply hvalid
      rw [hnames]
      simpa using List.mem_of_mem_dropLast hx
    have hgp3 : getPath fs n = PyPath.mk true (d0 :: rest) := by
      rw [hgp]
      rw [show joinAll ("/" :: (d0 :: rest).dropLast) (strToPath nm) =
        (strToPath "/").div (joinAll ((d0 :: rest).dropLast) (strToPath nm)) from rfl]
      rw [hvnm, joinAll_singles hvdrop [nm], hdns2]
      rfl
    rw [hgp3]
    unfold fsGetNode
    rw [show (PyPath.mk true (d0 :: rest)).parts = "/" :: (d0 :: rest) from rfl]
    dsimp only
    rw [if_pos hroot.symm]
    exact hwalk

/-- Root record of the `shU` scenario tree. -/
def nodeRootU : FSNode :=
  { name := "/", parent := none, kind := NodeKind.dir, children := [1],
    data := none, callbacks := [] }

def nodeAU : FSNode :=
  { name := "a", parent := some 0, kind := NodeKind.dir, children := [2],
    data := none, callbacks := [] }

def nodeBU : FSNode :=
  { name := "b", parent := some 1, kind := NodeKind.dir, children := [],
    data := none, callbacks := [] }

/-- C5 witness: the round trip on the concrete tree `/a/b` at node `b`. -/
theorem c5_witness : fsGetNode shU.fs (getPath shU.fs 2) = Except.ok 2 := by
  have h0 : UpChainT shU.fs 0 0 ["/"] :=
    UpChainT.top (show lookupN shU.fs 0 = some nodeRootU by decide) rfl
  have h1 : UpChainT shU.fs 0 1 (["/"] ++ ["a"]) :=
    UpChainT.cons (show lookupN shU.fs 1 = some nodeAU by decide) rfl h0
  have h2 : UpChainT shU.fs 0 2 ((["/"] ++ ["a"]) ++ ["b"]) :=
    UpChainT.cons (show lookupN shU.fs 2 = some nodeBU by decide) rfl h1
  exact c5_get_node_get_path_roundtrip (by decide) h2 (by decide) (by decide)

/-! ### `rm`: removal and unreachability -/

/-- Computation of `Node.remove_child` on an attached, uniquely-named child
in a well-formed tree: it detaches and returns exactly that child. -/
theorem removeChild_wf {fs : FS} (hw : WfFS fs) {nid par : Nat} {nd pn : FSNode}
    (hn : lookupN fs nid = some nd) (hp : nd.parent = some par) (hne : nid ≠ par)
    (hpl : lookupN fs par = some pn) :
    ∃ rest, nsRemoveList fs pn.children nd.name = some (nid, rest) ∧
      nid ∉ rest ∧ rest = pn.children.erase nid ∧
      removeChild fs par nd.name =
        (updateN (updateN fs par { pn with children := rest }) nid
          { nd with parent := none }, Except.ok nid) := by
  have hmem : nid ∈ pn.children := by
    have h := wf_parent_child hw hn hp
    unfold childrenOf at h
    rw [hpl] at h
    exact h
  obtain ⟨r, rest, hrm⟩ := nsRemoveList_isSome hmem (childNameMatches_of_lookup hn)
  obtain ⟨hri, hrest, hnot⟩ := nsRemoveList_unique (wf_sibling_names hw hpl) hn hmem hrm
  subst hri
  refine ⟨rest, hrm, hnot, hrest, ?_⟩
  have hget : nsGet fs pn.children nd.name = Except.ok r := by
    obtain ⟨c0, hc0⟩ := nsGet_mem_ok hmem (childNameMatches_of_lookup hn)
    obtain ⟨hc0mem, hc0m⟩ := nsGet_ok hc0
    have hc0i : c0 = r := by
      refine List.inj_on_of_nodup_map (wf_sibling_names hw hpl) hc0mem hmem ?_
      rw [nodeNameOf_of_matches hc0m]
      unfold nodeNameOf
      rw [hn]
    rw [hc0, hc0i]
  unfold removeChild
  rw [hpl]
  dsimp only
  rw [hget]
  dsimp only
  unfold setParent
  rw [hn]
  dsimp only
  rw [hp]
  dsimp only
  unfold nsRemove
  rw [hpl]
  dsimp only
  rw [hrm]
  dsimp only
  unfold setParentPtr
  rw [lookupN_updateN_ne _ _ hne, hn]

/-- After detaching `nid` from its parent, nothing in the removed subtree is
reachable from the root by children edges any more. -/
theorem rm_subtree_unreachable {fs : FS} (hw : WfFS fs) {nid par : Nat}
    {nd pn : FSNode}
    (hn : lookupN fs nid = some nd) (hp : nd.parent = some par) (hne : nid ≠ par)
    (hpl : lookupN fs par = some pn) {rest : List Nat}
    (hrest : rest = pn.children.erase nid) (hnot : nid ∉ rest) :
    ∀ d, Reach fs nid d →
      ¬ Reach (updateN (updateN fs par { pn with children := rest }) nid
        { nd with parent := none }) fs.root d := by
  have hfs1nid : lookupN (updateN fs par { pn with children := rest }) nid = some nd := by
    rw [lookupN_updateN_ne _ _ hne, hn]
  have hlk2 : ∀ j, lookupN (updateN (updateN fs par { pn with children := rest }) nid
      { nd with parent := none }) j =
      if j = nid then some { nd with parent := none }
      else if j = par then some { pn with children := rest }
      else lookupN fs j := by
    intro j
    by_cases h1 : j = nid
    · subst h1
      rw [if_pos rfl]
      exact lookupN_updateN_self hfs1nid _
    · rw [if_neg h1, lookupN_updateN_ne _ _ h1]
      by_cases h2 : j = par
      · subst h2
        rw [if_pos rfl]
        exact lookupN_updateN_self hpl _
      · rw [if_neg h2, lookupN_updateN_ne _ _ h2]
  have hedge : ∀ y ny c, lookupN (updateN (updateN fs par { pn with children := rest }) nid
      { nd with parent := none }) y = some ny → c ∈ ny.children →
      ∃ my, lookupN fs y = some my ∧ c ∈ my.children := by
    intro y ny c hy hc
    rw [hlk2 y] at hy
    by_cases h1 : y = nid
    · rw [if_pos h1] at hy
      cases hy
      exact ⟨nd, by rw [h1]; exact hn, hc⟩
    · rw [if_neg h1] at hy
      by_cases h2 : y = par
      · rw [if_pos h2] at hy
        cases hy
        refine ⟨pn, by rw [h2]; exact hpl, ?_⟩
        rw [hrest] at hc
        exact List.mem_of_mem_erase hc
      · rw [if_neg h2] at hy
        exact ⟨ny, hy, hc⟩
  have hnoedge : ∀ y ny, lookupN (updateN (updateN fs par { pn with children := rest }) nid
      { nd with parent := none }) y = some ny → nid ∉ ny.children := by
    intro y ny hy hc
    rw [hlk2 y] at hy
    by_cases h1 : y = nid
    · rw [if_pos h1] at hy
      cases hy
      obtain ⟨nj, hnj, hpj⟩ := wf_child_parent hw hn hc
      rw [hn] at hnj
      cases hnj
      rw [hp] at hpj
      exact hne (Option.some.inj hpj).symm
    · rw [if_neg h1] at hy
      by_cases h2 : y = par
      · rw [if_pos h2] at hy
        cases hy
        exact hnot hc
      · rw [if_neg h2] at hy
        obtain ⟨nj, hnj, hpj⟩ := wf_child_parent hw hy hc
        rw [hn] at hnj
        cases hnj
        rw [hp] at hpj
        exact h2 (Option.some.inj hpj).symm
  have hbase : ¬ Reach fs nid fs.root := by
    intro hr
    obtain ⟨rn, hrl, hrp, _, _⟩ := wf_root hw
    rcases reach_decompose hw hr with h | ⟨nx, pp, hx, hxp, _⟩
    · rw [h, hn] at hrl
      cases hrl
      rw [hp] at hrp
      exact Option.noConfusion hrp
    · rw [hrl] at hx
      cases hx
      rw [hrp] at hxp
      exact Option.noConfusion hxp
  have hmain : ∀ d, Reach (updateN (updateN fs par { pn with children := rest }) nid
      { nd with parent := none }) fs.root d → ¬ Reach fs nid d := by
    intro d hr2
    induction hr2 with
    | refl => exact hbase
    | step hr2' hy hc ih =>
      intro hrc
      rcases reach_decompose hw hrc with h | ⟨nc, pp, hcl, hcp, hrp⟩
      · subst h
        exact hnoedge _ _ hy hc
      · obtain ⟨my, hmy, hcm⟩ := hedge _ _ _ hy hc
        obtain ⟨nc2, hnc2, hpc2⟩ := wf_child_parent hw hmy hcm
        rw [hcl] at hnc2
        cases hnc2
        rw [hcp] at hpc2
        have hppy : pp = _ := Option.some.inj hpc2
        exact ih (hppy ▸ hrp)
  exact fun d hd hr2 => hmain d hr2 hd

/-- `rm(path, recursive=True)` on an attached non-root directory: it
succeeds, returns exactly the resolved node, and afterwards the whole
removed subtree is unreachable from the root. -/
theorem rm_recursive_spec {sh : Shell} {s : String} {p : PyPath} {nid par : Nat}
    {nd : FSNode}
    (hw : WfFS sh.fs)
    (hres : resolvePath sh (strToPath s) = Except.ok p)
    (hget : fsGetNode sh.fs p = Except.ok nid)
    (hn : lookupN sh.fs nid = some nd)
    (_hdir : nd.kind = NodeKind.dir)
    (hp : nd.parent = some par)
    (hne : nid ≠ par) :
    (shellRm sh s true).2 = Except.ok nid ∧
    ∀ d, Reach sh.fs nid d → ¬ Reach (shellRm sh s true).1.fs sh.fs.root d := by
  have hplE : ∃ pn, lookupN sh.fs par = some pn := by
    have h := wf_parent_child hw hn hp
    unfold childrenOf at h
    cases hpl : lookupN sh.fs par with
    | none => rw [hpl] at h; simp at h
    | some pn => exact ⟨pn, rfl⟩
  obtain ⟨pn, hpl⟩ := hplE
  obtain ⟨rest, hrm, hnot, hrest, hrc⟩ := removeChild_wf hw hn hp hne hpl
  have hcomp : shellRm sh s true =
      ({ sh with fs := (updateN (updateN sh.fs par ({ pn with children := rest })) nid
        ({ nd with parent := none })) }, Except.ok nid) := by
    unfold shellRm
    rw [hres]
    dsimp only
    rw [hget]
    dsimp only
    rw [hn]
    dsimp only
    rw [if_neg (show ¬((nd.kind == NodeKind.dir && !true) = true) by simp)]
    rw [hp]
    dsimp only
    rw [hrc]
  rw [hcomp]
  exact ⟨rfl, rm_subtree_unreachable hw hn hp hne hpl hrest hnot⟩

/-- C7: the `rm` contract.  (1) `rm` without `recursive=True` on any
directory-like node fails with InvalidPath and leaves the shell state
untouched; (2) `rm` on the root fails with InvalidPath regardless of the
flag; (3) `rm(path, recursive=True)` on an attached non-root directory
succeeds, returns the removed node, and the removed subtree is afterwards
unreachable from the root. -/
theorem c7_rm_contract :
    (∀ (sh : Shell) (s : String) (p : PyPath) (nid : Nat) (nd : FSNode),
      resolvePath sh (strToPath s) = Except.ok p →
      fsGetNode sh.fs p = Except.ok nid →
      lookupN sh.fs nid = some nd → nd.kind = NodeKind.dir →
      shellRm sh s false = (sh, Except.error (Err.invalidPath "Use recursive"))) ∧
    (∀ (sh : Shell) (s : String) (p : PyPath) (recursive : Bool),
      WfFS sh.fs →
      resolvePath sh (strToPath s) = Except.ok p →
      fsGetNode sh.fs p = Except.ok sh.fs.root →
      ∃ msg, shellRm sh s recursive = (sh, Except.error (Err.invalidPath msg))) ∧
    (∀ (sh : Shell) (s : String) (p : PyPath) (nid par : Nat) (nd : FSNode),
      WfFS sh.fs →
      resolvePath sh (strToPath s) = Except.ok p →
      fsGetNode sh.fs p = Except.ok nid →
      lookupN sh.fs nid = some nd → nd.kind = NodeKind.dir →
      nd.parent = some par → nid ≠ par →
      (shellRm sh s true).2 = Except.ok nid ∧
      ∀ d, Reach sh.fs nid d → ¬ Reach (shellRm sh s true).1.fs sh.fs.root d) := by
  refine ⟨?_, ?_, ?_⟩
  · intro sh s p nid nd hres hget hn hdir
    unfold shellRm
    rw [hres]
    dsimp only
    rw [hget]
    dsimp only
    rw [hn]
    dsimp only
    rw [if_pos (show (nd.kind == NodeKind.dir && !false) = true by rw [hdir]; rfl)]
  · intro sh s p recursive hw hres hget
    obtain ⟨rn, hrl, hrp, hrk, _⟩ := wf_root hw
    cases recursive with
    | false =>
      refine ⟨"Use recursive", ?_⟩
      unfold shellRm
      rw [hres]
      dsimp only
      rw [hget]
      dsimp only
      rw [hrl]
      dsimp only
      rw [if_pos (show (rn.kind == NodeKind.dir && !false) = true by rw [hrk]; rfl)]
    | true =>
      refine ⟨"Cannot remove root", ?_⟩
      unfold shellRm
      rw [hres]
      dsimp only
      rw [hget]
      dsimp only
      rw [hrl]
      dsimp only
      rw [if_neg (show ¬((rn.kind == NodeKind.dir && !true) = true) by simp)]
      rw [hrp]
  · intro sh s p nid par nd hw hres hget hn hdir hp hne
    exact rm_recursive_spec hw hres hget hn hdir hp hne

/-- C7 witness: the three parts of the contract on the concrete tree `/a/b`:
non-recursive `rm` of the directory `/a` fails and changes nothing, `rm` of
the root fails, and recursive `rm` of `/a` returns node 1 and leaves its
child `b` (node 2) unreachable from the root. -/
theorem c7_witness :
    shellRm shU "/a" false = (shU, Except.error (Err.invalidPath "Use recursive")) ∧
    (∃ msg, shellRm shU "/" true = (shU, Except.error (Err.invalidPath msg))) ∧
    (shellRm shU "/a" true).2 = Except.ok 1 ∧
    ¬ Reach (shellRm shU "/a" true).1.fs shU.fs.root 2 := by
  obtain ⟨h1, h2, h3⟩ := c7_rm_contract
  have hiii := h3 shU "/a" (PyPath.mk true ["a"]) 1 0 nodeAU (by decide) (by decide)
    (by decide) (by decide) (by decide) (by decide) (by decide)
  refine ⟨?_, ?_, hiii.1, ?_⟩
  · exact h1 shU "/a" (PyPath.mk true ["a"]) 1 nodeAU (by decide) (by decide)
      (by decide) (by decide)
  · exact h2 shU "/" (PyPath.mk true []) true (by decide) (by decide) (by decide)
  · exact hiii.2 2 (Reach.step (Reach.refl 1)
      (show lookupN shU.fs 1 = some nodeAU by decide) (by decide))

/-! ### Shape congruence: the tree structure seen by lookup, ignoring
`data` and `callbacks`.  `set_data`, `clear_data` and `unwatch` only change
those two fields, so path resolution and `get_path` are unaffected. -/

def nodeShape (n : FSNode) : String × Option Nat × NodeKind × List Nat :=
  (n.name, n.parent, n.kind, n.children)

def ShapeEq (fs fs' : FS) : Prop :=
  fs.root = fs'.root ∧ fs.nodes.length = fs'.nodes.length ∧
  ∀ i, (lookupN fs i).map nodeShape = (lookupN fs' i).map nodeShape

theorem shapeEq_refl (fs : FS) : ShapeEq fs fs :=
  ⟨rfl, rfl, fun _ => rfl⟩

theorem shapeEq_trans {fs1 fs2 fs3 : FS} (h1 : ShapeEq fs1 fs2)
    (h2 : ShapeEq fs2 fs3) : ShapeEq fs1 fs3 :=
  ⟨h1.1.trans h2.1, h1.2.1.trans h2.2.1, fun i => (h1.2.2 i).trans (h2.2.2 i)⟩

theorem shapeEq_lookup {fs fs' : FS} (h : ShapeEq fs fs') (i : Nat) :
    (lookupN fs i = none ∧ lookupN fs' i = none) ∨
    ∃ n n', lookupN fs i = some n ∧ lookupN fs' i = some n' ∧
      n.name = n'.name ∧ n.parent = n'.parent ∧ n.kind = n'.kind ∧
      n.children = n'.children := by
  have hs := h.2.2 i
  cases h1 : lookupN fs i with
  | none =>
    rw [h1] at hs
    cases h2 : lookupN fs' i with
    | none => exact Or.inl ⟨rfl, rfl⟩
    | some n' => rw [h2] at hs; exact absurd hs (by simp)
  | some n =>
    rw [h1] at hs
    cases h2 : lookupN fs' i with
    | none => rw [h2] at hs; exact absurd hs (by simp)
    | some n' =>
      rw [h2] at hs
      simp only [Option.map_some', Option.some.injEq] at hs
      unfold nodeShape at hs
      simp only [Prod.mk.injEq] at hs
      exact Or.inr ⟨n, n', rfl, rfl, hs.1, hs.2.1, hs.2.2.1, hs.2.2.2⟩

theorem shapeEq_updateN {fs : FS} {i : Nat} {n m : FSNode}
    (h : lookupN fs i = some n) (hs : nodeShape m = nodeShape n) :
    ShapeEq fs (updateN fs i m) := by
  refine ⟨rfl, (updateN_length fs i m).symm, fun j => ?_⟩
  rw [lookupN_updateN]
  by_cases hj : j = i
  · rw [if_pos hj, hj, h]
    simp [hs]
  · rw [if_neg hj]

theorem nodeNameOf_congr {fs fs' : FS} (h : ShapeEq fs fs') (i : Nat) :
    nodeNameOf fs i = nodeNameOf fs' i := by
  unfold nodeNameOf
  rcases shapeEq_lookup h i with ⟨h1, h2⟩ | ⟨n, n', h1, h2, hn, _, _, _⟩
  · rw [h1, h2]
  · rw [h1, h2]
    exact hn

theorem childNameMatches_congr {fs fs' : FS} (h : ShapeEq fs fs') (c : Nat)
    (nm : String) : childNameMatches fs c nm = childNameMatches fs' c nm := by
  unfold childNameMatches
  rcases shapeEq_lookup h c with ⟨h1, h2⟩ | ⟨n, n', h1, h2, hn, _, _, _⟩
  · rw [h1, h2]
  · rw [h1, h2]
    dsimp only
    rw [hn]

theorem nsGet_congr {fs fs' : FS} (h : ShapeEq fs fs') (ch : List Nat)
    (nm : String) : nsGet fs ch nm = nsGet fs' ch nm := by
  unfold nsGet
  have : ch.find? (fun c => childNameMatches fs c nm) =
      ch.find? (fun c => childNameMatches fs' c nm) := by
    induction ch with
    | nil => rfl
    | cons hd tl ih =>
      simp only [List.find?_cons]
      rw [childNameMatches_congr h hd nm, ih]
  rw [this]

theorem getChild_congr {fs fs' : FS} (h : ShapeEq fs fs') (i : Nat) (nm : String) :
    getChild fs i nm = getChild fs' i nm := by
  unfold getChild
  rcases shapeEq_lookup h i with ⟨h1, h2⟩ | ⟨n, n', h1, h2, _, _, hk, hc⟩
  · rw [h1, h2]
  · rw [h1, h2]
    dsimp only
    rw [hk, hc]
    cases n'.kind with
    | leaf => rfl
    | dir => exact nsGet_congr h n'.children nm

theorem walkChildren_congr {fs fs' : FS} (h : ShapeEq fs fs')
    (acc : Except Err Nat) (l : List String) :
    walkChildren fs acc l = walkChildren fs' acc l := by
  induction l generalizing acc with
  | nil => rw [walk_nil, walk_nil]
  | cons hd tl ih =>
    cases acc with
    | error e => rw [walk_error, walk_error]
    | ok i =>
      rw [show walkChildren fs (Except.ok i) (hd :: tl) =
        walkChildren fs (getChild fs i hd) tl from rfl]
      rw [show walkChildren fs' (Except.ok i) (hd :: tl) =
        walkChildren fs' (getChild fs' i hd) tl from rfl]
      rw [getChild_congr h i hd, ih]

theorem rootNameOf_congr {fs fs' : FS} (h : ShapeEq fs fs') :
    rootNameOf fs = rootNameOf fs' := by
  unfold rootNameOf
  rw [h.1]
  exact nodeNameOf_congr h fs'.root

theorem fsGetNode_congr {fs fs' : FS} (h : ShapeEq fs fs') (p : PyPath) :
    fsGetNode fs p = fsGetNode fs' p := by
  unfold fsGetNode
  cases p.parts with
  | nil => rfl
  | cons r rest =>
    dsimp only
    rw [rootNameOf_congr h, h.1, getChild_congr h fs'.root r,
      walkChildren_congr h]

theorem getPathAux_congr {fs fs' : FS} (h : ShapeEq fs fs') :
    ∀ (fuel i : Nat) (acc : PyPath),
      getPathAux fs fuel i acc = getPathAux fs' fuel i acc := by
  intro fuel
  induction fuel with
  | zero => intro i acc; rfl
  | succ f ih =>
    intro i acc
    unfold getPathAux
    rcases shapeEq_lookup h i with ⟨h1, h2⟩ | ⟨n, n', h1, h2, _, hp, _, _⟩
    · rw [h1, h2]
    · rw [h1, h2]
      dsimp only
      rw [← hp]
      cases n.parent with
      | none => rfl
      | some p =>
        dsimp only
        rw [nodeNameOf_congr h p, ih]

theorem getPath_congr {fs fs' : FS} (h : ShapeEq fs fs') (i : Nat) :
    getPath fs i = getPath fs' i := by
  unfold getPath
  rw [nodeNameOf_congr h i, h.2.1, getPathAux_congr h]

theorem shellPwd_congr {sh sh' : Shell} (h : ShapeEq sh.fs sh'.fs)
    (hc : sh.cwd = sh'.cwd) : shellPwd sh = shellPwd sh' := by
  unfold shellPwd
  rw [hc, getPath_congr h]

theorem resolvePath_congr {sh sh' : Shell} (h : ShapeEq sh.fs sh'.fs)
    (hc : sh.cwd = sh'.cwd) (p : PyPath) :
    resolvePath sh p = resolvePath sh' p := by
  have hcore : ∀ (r : String) (parts : List String) (q : PyPath),
      resolveCore sh r parts q = resolveCore sh' r parts q := by
    intro r parts q
    unfold resolveCore
    rw [rootNameOf_congr h, shellPwd_congr h hc]
  unfold resolvePath
  cases p.parts with
  | nil => dsimp only; rw [hcore]
  | cons r rest => dsimp only; rw [hcore]

/-- Computation of `set_data` on a resolved leaf. -/
theorem shellSetData_leaf {sh : Shell} {s : String} (v : String) {rp : PyPath}
    {nid : Nat} {nd : FSNode}
    (hres : resolvePath sh (strToPath s) = Except.ok rp)
    (hget : fsGetNode sh.fs rp = Except.ok nid)
    (hn : lookupN sh.fs nid = some nd)
    (hleaf : nd.kind = NodeKind.leaf) :
    shellSetData sh s v =
      ({ sh with
          fs := updateN sh.fs nid ({ nd with data := some v }),
          log := sh.log ++ nd.callbacks.map (fun cb => (cb, getPath sh.fs nid)) },
       none) := by
  unfold shellSetData
  rw [hres]
  dsimp only
  rw [hget]
  dsimp only
  rw [hn]
  dsimp only
  rw [if_pos (show (nd.kind == NodeKind.leaf) = true by rw [hleaf]; rfl)]
  unfold executeCallbacks
  rw [lookupN_updateN_self hn]
  dsimp only
  have hs1 : ShapeEq sh.fs (updateN sh.fs nid ({ nd with data := some v })) :=
    shapeEq_updateN hn rfl
  rw [← getPath_congr hs1 nid]

/-- Computation of `clear_data` on a resolved leaf. -/
theorem shellClearData_leaf {sh : Shell} {s : String} {rp : PyPath}
    {nid : Nat} {nd : FSNode}
    (hres : resolvePath sh (strToPath s) = Except.ok rp)
    (hget : fsGetNode sh.fs rp = Except.ok nid)
    (hn : lookupN sh.fs nid = some nd)
    (hleaf : nd.kind = NodeKind.leaf) :
    shellClearData sh s =
      ({ sh with
          fs := updateN sh.fs nid ({ nd with data := none }),
          log := sh.log ++ nd.callbacks.map (fun cb => (cb, getPath sh.fs nid)) },
       none) := by
  unfold shellClearData
  rw [hres]
  dsimp only
  rw [hget]
  dsimp only
  rw [hn]
  dsimp only
  rw [if_pos (show (nd.kind == NodeKind.leaf) = true by rw [hleaf]; rfl)]
  unfold executeCallbacks
  rw [lookupN_updateN_self hn]
  dsimp only
  have hs1 : ShapeEq sh.fs (updateN sh.fs nid ({ nd with data := none })) :=
    shapeEq_updateN hn rfl
  rw [← getPath_congr hs1 nid]

/-- Computation of `unwatch_file` with no callbacks listed: clears the set. -/
theorem shellUnwatchFile_clear {sh : Shell} {s : String} {rp : PyPath}
    {nid : Nat} {nd : FSNode}
    (hres : resolvePath sh (strToPath s) = Except.ok rp)
    (hget : fsGetNode sh.fs rp = Except.ok nid)
    (hn : lookupN sh.fs nid = some nd)
    (hleaf : nd.kind = NodeKind.leaf) :
    shellUnwatchFile sh s [] =
      ({ sh with fs := updateN sh.fs nid ({ nd with callbacks := [] }) }, none) := by
  unfold shellUnwatchFile
  rw [hres]
  dsimp only
  rw [hget]
  dsimp only
  rw [hn]
  dsimp only
  rw [if_pos (show (nd.kind == NodeKind.leaf) = true by rw [hleaf]; rfl)]
  rfl

/-- C8: with exactly one callback `c` registered on the leaf at `s` (whose
canonical absolute path is `rp`), `set_data` appends exactly one invocation
`(c, rp)` to the log and succeeds; `clear_data` likewise; and after
`unwatch_file(s)` (no callbacks listed, clearing all) a further `set_data`
appends nothing. -/
theorem c8_watchers_contract {sh : Shell} {s : String} (v v2 : String)
    {rp : PyPath} {nid c : Nat} {nd : FSNode}
    (hres : resolvePath sh (strToPath s) = Except.ok rp)
    (hget : fsGetNode sh.fs rp = Except.ok nid)
    (hn : lookupN sh.fs nid = some nd)
    (hleaf : nd.kind = NodeKind.leaf)
    (hcb : nd.callbacks = [c])
    (hpath : getPath sh.fs nid = rp) :
    ((shellSetData sh s v).2 = none ∧
      (shellSetData sh s v).1.log = sh.log ++ [(c, rp)]) ∧
    ((shellClearData sh s).2 = none ∧
      (shellClearData sh s).1.log = sh.log ++ [(c, rp)]) ∧
    ((shellUnwatchFile (shellSetData sh s v).1 s []).2 = none ∧
      (shellSetData (shellUnwatchFile (shellSetData sh s v).1 s []).1 s v2).2 = none ∧
      (shellSetData (shellUnwatchFile (shellSetData sh s v).1 s []).1 s v2).1.log =
        (shellUnwatchFile (shellSetData sh s v).1 s []).1.log) := by
  have h1 := shellSetData_leaf v hres hget hn hleaf
  have hlog1 : (shellSetData sh s v).1.log = sh.log ++ [(c, rp)] := by
    rw [h1]
    dsimp only
    rw [hcb, hpath]
    rfl
  have h2 := shellClearData_leaf hres hget hn hleaf
  have hlog2 : (shellClearData sh s).1.log = sh.log ++ [(c, rp)] := by
    rw [h2]
    dsimp only
    rw [hcb, hpath]
    rfl
  -- state after the first set_data
  have hsh1 : (shellSetData sh s v).1 =
      { sh with
        fs := updateN sh.fs nid ({ nd with data := some v }),
        log := sh.log ++ nd.callbacks.map (fun cb => (cb, getPath sh.fs nid)) } := by
    rw [h1]
  have hshape1 : ShapeEq sh.fs (shellSetData sh s v).1.fs := by
    rw [hsh1]
    exact shapeEq_updateN hn rfl
  have hcwd1 : sh.cwd = (shellSetData sh s v).1.cwd := by rw [hsh1]
  have hres1 : resolvePath (shellSetData sh s v).1 (strToPath s) = Except.ok rp := by
    rw [← resolvePath_congr hshape1 hcwd1, hres]
  have hget1 : fsGetNode (shellSetData sh s v).1.fs rp = Except.ok nid := by
    rw [← fsGetNode_congr hshape1, hget]
  have hn1 : lookupN (shellSetData sh s v).1.fs nid =
      some ({ nd with data := some v }) := by
    rw [hsh1]
    exact lookupN_updateN_self hn _
  have h3 := shellUnwatchFile_clear hres1 hget1 hn1 hleaf
  have hsh2 : (shellUnwatchFile (shellSetData sh s v).1 s []).1 =
      { (shellSetData sh s v).1 with
        fs := updateN (shellSetData sh s v).1.fs nid
          ({ ({ nd with data := some v }) with callbacks := [] }) } := by
    rw [h3]
  have hshape2 : ShapeEq sh.fs (shellUnwatchFile (shellSetData sh s v).1 s []).1.fs := by
    refine shapeEq_trans hshape1 ?_
    rw [hsh2]
    exact shapeEq_updateN hn1 rfl
  have hcwd2 : sh.cwd = (shellUnwatchFile (shellSetData sh s v).1 s []).1.cwd := by
    rw [hsh2, ← hcwd1]
  have hres2 : resolvePath (shellUnwatchFile (shellSetData sh s v).1 s []).1
      (strToPath s) = Except.ok rp := by
    rw [← resolvePath_congr hshape2 hcwd2, hres]
  have hget2 : fsGetNode (shellUnwatchFile (shellSetData sh s v).1 s []).1.fs rp =
      Except.ok nid := by
    rw [← fsGetNode_congr hshape2, hget]
  have hn2 : lookupN (shellUnwatchFile (shellSetData sh s v).1 s []).1.fs nid =
      some ({ ({ nd with data := some v }) with callbacks := [] }) := by
    rw [hsh2]
    exact lookupN_updateN_self hn1 _
  have h4 := shellSetData_leaf v2 hres2 hget2 hn2 hleaf
  refine ⟨⟨by rw [h1], hlog1⟩, ⟨by rw [h2], hlog2⟩, by rw [h3], by rw [h4], ?_⟩
  rw [h4]
  dsimp only
  simp

/-- The C8 scenario: a leaf `/x` with the single callback `7` registered. -/
def shW : Shell := (shellWatchFile (shellTouch freshShell "/x").1 "/x" 7).1

def nodeXW : FSNode :=
  { name := "x", parent := some 0, kind := NodeKind.leaf, children := [],
    data := none, callbacks := [7] }

/-- C8 witness: the watcher contract on the concrete leaf `/x`. -/
theorem c8_witness :
    ((shellSetData shW "/x" "v").2 = none ∧
      (shellSetData shW "/x" "v").1.log = shW.log ++ [(7, PyPath.mk true ["x"])]) ∧
    ((shellClearData shW "/x").2 = none ∧
      (shellClearData shW "/x").1.log = shW.log ++ [(7, PyPath.mk true ["x"])]) ∧
    ((shellUnwatchFile (shellSetData shW "/x" "v").1 "/x" []).2 = none ∧
      (shellSetData (shellUnwatchFile (shellSetData shW "/x" "v").1 "/x" []).1
        "/x" "v2").2 = none ∧
      (shellSetData (shellUnwatchFile (shellSetData shW "/x" "v").1 "/x" []).1
        "/x" "v2").1.log =
        (shellUnwatchFile (shellSetData shW "/x" "v").1 "/x" []).1.log) :=
  c8_watchers_contract "v" "v2" (by decide) (by decide)
    (show lookupN shW.fs 1 = some nodeXW by decide) (by decide) (by decide)
    (by decide)

/-! ### Failed `move_node` preserves every node's name and parent (C1) -/

/-- The observation relevant to move atomicity: a node's name and parent. -/
def namesParents (o : Option FSNode) : Option (String × Option Nat) :=
  o.map (fun n => (n.name, n.parent))

theorem update_children_preserves {fs : FS} {op : Nat} {own : FSNode}
    (h : lookupN fs op = some own) (ch : List Nat) :
    ∀ i, namesParents (lookupN (updateN fs op ({ own with children := ch })) i) =
      namesParents (lookupN fs i) := by
  intro i
  rw [lookupN_updateN]
  by_cases hi : i = op
  · rw [if_pos hi, hi, h]
    rfl
  · rw [if_neg hi]

/-- Any failure of `set_parent` leaves every node's name and parent intact:
the only mutation that can have happened is the removal from the old
parent's children list. -/
theorem setParent_err_preserves {fs fs' : FS} {i p : Nat} {e : Err}
    (h : setParent fs i (some p) = (fs', some e)) :
    ∀ j, namesParents (lookupN fs' j) = namesParents (lookupN fs j) := by
  unfold setParent at h
  cases hi : lookupN fs i with
  | none =>
    rw [hi] at h
    cases h
    intro j
    rfl
  | some ni =>
    rw [hi] at h
    dsimp only at h
    cases hpar : ni.parent with
    | none =>
      rw [hpar] at h
      dsimp only at h
      cases hadd : nsAdd fs p i with
      | mk fs2 r2 =>
        rw [hadd] at h
        cases r2 with
        | none => dsimp only at h; cases h
        | some e2 =>
          dsimp only at h
          cases h
          rw [nsAdd_error_state hadd]
          intro j
          rfl
    | some op =>
      rw [hpar] at h
      dsimp only at h
      cases hrem : nsRemove fs op ni.name with
      | mk fs1 res =>
        rw [hrem] at h
        cases res with
        | error e2 =>
          dsimp only at h
          cases h
          rw [(nsRemove_error_state hrem).1]
          intro j
          rfl
        | ok r =>
          dsimp only at h
          cases hadd : nsAdd fs1 p i with
          | mk fs2 r2 =>
            rw [hadd] at h
            cases r2 with
            | none => dsimp only at h; cases h
            | some e2 =>
              dsimp only at h
              cases h
              obtain ⟨own, rest, hlo, _, hfs1⟩ := nsRemove_ok_state hrem
              rw [nsAdd_error_state hadd, hfs1]
              exact update_children_preserves hlo rest

/-- A failing `moveFinish` (the isinstance check plus `set_parent`) leaves
every node's name and parent intact. -/
theorem moveFinish_err_preserves {fs fs' : FS} {src tgt : Nat} {e : Err}
    (h : moveFinish fs src tgt = (fs', some e)) :
    ∀ j, namesParents (lookupN fs' j) = namesParents (lookupN fs j) := by
  unfold moveFinish at h
  cases hlt : lookupN fs tgt with
  | none =>
    rw [hlt] at h
    cases h
    intro j
    rfl
  | some tn =>
    rw [hlt] at h
    dsimp only at h
    by_cases hk : (tn.kind == NodeKind.dir) = true
    · rw [if_pos hk] at h
      exact setParent_err_preserves h
    · rw [if_neg hk] at h
      cases h
      intro j
      rfl

theorem getChild_ok_heap {fs : FS} {i c : Nat} {nm : String}
    (h : getChild fs i nm = Except.ok c) :
    ∃ n, lookupN fs c = some n ∧ n.name = nm := by
  unfold getChild at h
  cases hl : lookupN fs i with
  | none => rw [hl] at h; cases h
  | some n =>
    rw [hl] at h
    dsimp only at h
    cases hk : n.kind with
    | leaf => rw [hk] at h; cases h
    | dir =>
      rw [hk] at h
      exact nsGet_ok_lookup h

theorem walk_ok_heap {fs : FS} {l : List String} {acc : Except Err Nat} {c : Nat}
    (h : walkChildren fs acc l = Except.ok c)
    (hacc : ∀ j, acc = Except.ok j → ∃ n, lookupN fs j = some n) :
    ∃ n, lookupN fs c = some n := by
  induction l generalizing acc with
  | nil =>
    rw [walk_nil] at h
    exact hacc c h
  | cons hd tl ih =>
    cases acc with
    | error e => rw [walk_error] at h; cases h
    | ok i =>
      rw [show walkChildren fs (Except.ok i) (hd :: tl) =
        walkChildren fs (getChild fs i hd) tl from rfl] at h
      refine ih h ?_
      intro j hj
      obtain ⟨n, hn, _⟩ := getChild_ok_heap hj
      exact ⟨n, hn⟩

theorem fsGetNode_ok_heap {fs : FS} (hw : WfFS fs) {p : PyPath} {c : Nat}
    (h : fsGetNode fs p = Except.ok c) :
    ∃ n, lookupN fs c = some n := by
  unfold fsGetNode at h
  cases hp : p.parts with
  | nil => rw [hp] at h; cases h
  | cons r rest =>
    rw [hp] at h
    dsimp only at h
    refine walk_ok_heap h ?_
    intro j hj
    by_cases hr : r = rootNameOf fs
    · rw [if_pos hr] at hj
      cases hj
      obtain ⟨rn, hrl, _, _, _⟩ := wf_root hw
      exact ⟨rn, hrl⟩
    · rw [if_neg hr] at hj
      obtain ⟨n, hn, _⟩ := getChild_ok_heap hj
      exact ⟨n, hn⟩

theorem getChild_ndne {fs : FS} {t : Nat} {nm m : String}
    (h : getChild fs t nm = Except.error (Err.nodeDoesNotExist m)) :
    ∃ tn, lookupN fs t = some tn ∧ tn.kind = NodeKind.dir ∧
      ∀ c ∈ tn.children, childNameMatches fs c nm = false := by
  unfold getChild at h
  cases hl : lookupN fs t with
  | none => rw [hl] at h; cases h
  | some tn =>
    rw [hl] at h
    dsimp only at h
    cases hk : tn.kind with
    | leaf => rw [hk] at h; cases h
    | dir =>
      rw [hk] at h
      exact ⟨tn, rfl, hk, (nsGet_error h).1⟩

/-- Decomposition of `get_node` into its last `get_child` step, when the
parent path resolves. -/
theorem fsGetNode_last_step {fs : FS} {p : PyPath} {t : Nat}
    (hc : p.comps ≠ [])
    (hpar : fsGetNode fs p.parentDir = Except.ok t) :
    fsGetNode fs p = getChild fs t p.nameStr := by
  rcases List.eq_nil_or_concat p.comps with hnil | ⟨l0, a, hsplit⟩
  · exact absurd hnil hc
  have hname : p.nameStr = a := by
    unfold PyPath.nameStr
    rw [hsplit]
    simp
  have hdrop : p.parentDir.comps = l0 := by
    unfold PyPath.parentDir
    rw [hsplit]
    simp
  rw [hname]
  unfold fsGetNode at hpar ⊢
  cases habs : p.absolute with
  | true =>
    have hparts : p.parts = "/" :: (l0 ++ [a]) := by
      unfold PyPath.parts
      rw [habs, hsplit]
      simp
    have hparts2 : p.parentDir.parts = "/" :: l0 := by
      unfold PyPath.parts PyPath.parentDir
      rw [habs, hsplit]
      simp
    rw [hparts]
    rw [hparts2] at hpar
    dsimp only at hpar ⊢
    rw [walk_append, hpar]
    rw [show walkChildren fs (Except.ok t) [a] =
      walkChildren fs (getChild fs t a) [] from rfl]
    rw [walk_nil]
  | false =>
    have hparts : p.parts = l0 ++ [a] := by
      unfold PyPath.parts
      rw [habs, hsplit]
      simp
    have hparts2 : p.parentDir.parts = l0 := by
      unfold PyPath.parts PyPath.parentDir
      rw [habs, hsplit]
      simp
    rw [hparts]
    rw [hparts2] at hpar
    cases hl0 : l0 with
    | nil =>
      rw [hl0] at hpar
      cases hpar
    | cons r rest =>
      rw [hl0] at hpar
      rw [List.cons_append]
      dsimp only at hpar ⊢
      rw [walk_append, hpar]
      rw [show walkChildren fs (Except.ok t) [a] =
        walkChildren fs (getChild fs t a) [] from rfl]
      rw [walk_nil]

theorem lookupN_renameNode {fs : FS} {src : Nat} {sn : FSNode}
    (h : lookupN fs src = some sn) (nm : String) (j : Nat) :
    lookupN (renameNode fs src nm) j =
      if j = src then some ({ sn with name := nm }) else lookupN fs j := by
  unfold renameNode
  rw [h, lookupN_updateN]
  by_cases hj : j = src
  · rw [if_pos hj, if_pos hj, h]
    rfl
  · rw [if_neg hj, if_neg hj]

theorem nsContains_eq_false {fs : FS} {ch : List Nat} {nm : String}
    (h : ∀ c ∈ ch, childNameMatches fs c nm = false) :
    nsContains fs ch nm = false := by
  unfold nsContains
  rw [List.any_eq_false]
  intro c hc
  rw [h c hc]
  simp

theorem nsAdd_success {fs : FS} {ow cid : Nat} {own cn : FSNode}
    (ho : lookupN fs ow = some own) (hc : lookupN fs cid = some cn)
    (hcont : nsContains fs own.children cn.name = false) :
    nsAdd fs ow cid =
      (updateN fs ow ({ own with children := own.children ++ [cid] }), none) := by
  unfold nsAdd
  rw [ho, hc]
  dsimp only
  rw [hcont]
  simp

theorem nsRemove_success {fs : FS} {ow : Nat} {own : FSNode} {nm : String} {r : Nat}
    {rest : List Nat} (ho : lookupN fs ow = some own)
    (hrm : nsRemoveList fs own.children nm = some (r, rest)) :
    nsRemove fs ow nm = (updateN fs ow ({ own with children := rest }), Except.ok r) := by
  unfold nsRemove
  rw [ho]
  dsimp only
  rw [hrm]

/-- In the rename branch of `move_node` (target missing, its parent found),
reparenting after the rename cannot fail on a well-formed tree: the target
directory has no child with the new name, and the renamed source is found in
its old parent's NodeSet under the new name. -/
theorem moveRename_succeeds {fs : FS} {sp tp : PyPath} {src tgt : Nat} {m : String}
    (hw : WfFS fs)
    (hsp : fsGetNode fs sp = Except.ok src)
    (hc : tp.comps ≠ [])
    (htp : fsGetNode fs tp = Except.error (Err.nodeDoesNotExist m))
    (htpp : fsGetNode fs tp.parentDir = Except.ok tgt) :
    (moveFinish (renameNode fs src tp.nameStr) src tgt).2 = none := by
  have hdec := fsGetNode_last_step hc htpp
  rw [hdec] at htp
  obtain ⟨tn, htn, htk, hnone⟩ := getChild_ndne htp
  obtain ⟨sn, hsn⟩ := fsGetNode_ok_heap hw hsp
  have hlk1 := lookupN_renameNode hsn tp.nameStr
  have hF2 : ∀ c nm, c ≠ src →
      childNameMatches (renameNode fs src tp.nameStr) c nm =
        childNameMatches fs c nm := by
    intro c nm hcs
    unfold childNameMatches
    rw [hlk1 c, if_neg hcs]
  have hF3 : childNameMatches (renameNode fs src tp.nameStr) src tp.nameStr = true := by
    unfold childNameMatches
    rw [hlk1 src, if_pos rfl]
    simp
  have htgt1 : ∃ tn1, lookupN (renameNode fs src tp.nameStr) tgt = some tn1 ∧
      tn1.kind = NodeKind.dir ∧ tn1.children = tn.children := by
    rw [hlk1 tgt]
    by_cases hts : tgt = src
    · rw [if_pos hts]
      have hts2 : tn = sn := by
        rw [hts] at htn
        rw [htn] at hsn
        exact Option.some.inj hsn
      refine ⟨_, rfl, ?_, ?_⟩
      · show sn.kind = NodeKind.dir
        rw [← hts2]
        exact htk
      · show sn.children = tn.children
        rw [hts2]
    · rw [if_neg hts]
      exact ⟨tn, htn, htk, rfl⟩
  obtain ⟨tn1, htn1, htk1, htc1⟩ := htgt1
  unfold moveFinish
  rw [htn1]
  dsimp only
  rw [if_pos (show (tn1.kind == NodeKind.dir) = true by rw [htk1]; rfl)]
  unfold setParent
  rw [hlk1 src, if_pos rfl]
  dsimp only
  cases hpar : sn.parent with
  | none =>
    dsimp only
    have hcont : nsContains (renameNode fs src tp.nameStr) tn1.children tp.nameStr = false := by
      rw [htc1]
      refine nsContains_eq_false ?_
      intro c hcmem
      have hcs : c ≠ src := by
        intro he
        obtain ⟨nj, hnj, hnjp⟩ := wf_child_parent hw htn (he ▸ hcmem)
        rw [hsn] at hnj
        cases Option.some.inj hnj
        rw [hpar] at hnjp
        simp at hnjp
      rw [hF2 c _ hcs]
      exact hnone c hcmem
    have hsn1 : lookupN (renameNode fs src tp.nameStr) src =
        some ({ sn with name := tp.nameStr }) := by
      rw [hlk1 src, if_pos rfl]
    have hadd := nsAdd_success htn1 hsn1 hcont
    rw [hadd]
  | some op =>
    dsimp only
    have hmem := wf_parent_child hw hsn hpar
    have hopn : ∃ opn, lookupN fs op = some opn ∧ src ∈ opn.children := by
      unfold childrenOf at hmem
      cases ho : lookupN fs op with
      | none => rw [ho] at hmem; simp at hmem
      | some opn => rw [ho] at hmem; exact ⟨opn, rfl, hmem⟩
    obtain ⟨opn, hopn, hsrcmem⟩ := hopn
    have hop1 : ∃ op1, lookupN (renameNode fs src tp.nameStr) op = some op1 ∧
        op1.children = opn.children := by
      rw [hlk1 op]
      by_cases hos : op = src
      · rw [if_pos hos]
        have heq : opn = sn := by
          rw [hos] at hopn
          rw [hopn] at hsn
          exact Option.some.inj hsn
        refine ⟨_, rfl, ?_⟩
        show sn.children = opn.children
        rw [heq]
      · rw [if_neg hos]
        exact ⟨opn, hopn, rfl⟩
    obtain ⟨op1, hop1, hop1c⟩ := hop1
    have hmem1 : src ∈ op1.children := by
      rw [hop1c]
      exact hsrcmem
    obtain ⟨r, rest, hrm⟩ := nsRemoveList_isSome hmem1 hF3
    have hrem := nsRemove_success hop1 hrm
    rw [hrem]
    dsimp only
    have hlk2 : ∀ j, lookupN (updateN (renameNode fs src tp.nameStr) op
          ({ op1 with children := rest })) j =
        if j = op then some ({ op1 with children := rest })
        else lookupN (renameNode fs src tp.nameStr) j := by
      intro j
      rw [lookupN_updateN]
      by_cases hj : j = op
      · rw [if_pos hj, if_pos hj, hop1]
        rfl
      · rw [if_neg hj, if_neg hj]
    have hF1 : ∀ c nm, childNameMatches (updateN (renameNode fs src tp.nameStr) op
          ({ op1 with children := rest })) c nm =
        childNameMatches (renameNode fs src tp.nameStr) c nm := by
      intro c nm
      unfold childNameMatches
      rw [hlk2 c]
      by_cases hco : c = op
      · rw [if_pos hco, hco, hop1]
      · rw [if_neg hco]
    have hsrc2 : ∃ src2, lookupN (updateN (renameNode fs src tp.nameStr) op
          ({ op1 with children := rest })) src = some src2 ∧
        src2.name = tp.nameStr := by
      rw [hlk2 src]
      by_cases hso : src = op
      · rw [if_pos hso]
        have h1 := hlk1 op
        rw [if_pos hso.symm, hop1] at h1
        have hop1sn : op1 = { sn with name := tp.nameStr } := Option.some.inj h1
        refine ⟨_, rfl, ?_⟩
        rw [hop1sn]
      · rw [if_neg hso, hlk1 src, if_pos rfl]
        exact ⟨_, rfl, rfl⟩
    obtain ⟨src2, hsrc2, hsrc2n⟩ := hsrc2
    have htgt2 : ∃ tn2, lookupN (updateN (renameNode fs src tp.nameStr) op
          ({ op1 with children := rest })) tgt = some tn2 ∧
        tn2.children = (if tgt = op then rest else tn.children) := by
      rw [hlk2 tgt]
      by_cases hto : tgt = op
      · rw [if_pos hto, if_pos hto]
        exact ⟨_, rfl, rfl⟩
      · rw [if_neg hto, if_neg hto, htn1]
        exact ⟨tn1, rfl, htc1⟩
    obtain ⟨tn2, htn2, htn2c⟩ := htgt2
    have hcont2 : nsContains (updateN (renameNode fs src tp.nameStr) op
          ({ op1 with children := rest })) tn2.children tp.nameStr = false := by
      rw [htn2c]
      by_cases hto : tgt = op
      · rw [if_pos hto]
        have hopntn : opn = tn := by
          rw [← hto] at hopn
          rw [hopn] at htn
          exact Option.some.inj htn
        have hname1 : ∀ x, nodeNameOf (renameNode fs src tp.nameStr) x =
            if x = src then tp.nameStr else nodeNameOf fs x := by
          intro x
          unfold nodeNameOf
          rw [hlk1 x]
          by_cases hx : x = src
          · rw [if_pos hx, if_pos hx]
          · rw [if_neg hx, if_neg hx]
        have hnocol : ∀ x ∈ tn.children, nodeNameOf fs x ≠ tp.nameStr := by
          intro x hx
          obtain ⟨nx, hnx, _⟩ := wf_child_parent hw htn hx
          have hm := hnone x hx
          unfold childNameMatches at hm
          rw [hnx] at hm
          dsimp only at hm
          unfold nodeNameOf
          rw [hnx]
          dsimp only
          intro he
          rw [he] at hm
          simp at hm
        have hbase := wf_sibling_names hw htn
        have hpw : tn.children.Pairwise
            (fun a b => nodeNameOf fs a ≠ nodeNameOf fs b) :=
          List.pairwise_map.mp hbase
        have hpw1 : tn.children.Pairwise
            (fun a b => nodeNameOf (renameNode fs src tp.nameStr) a ≠
              nodeNameOf (renameNode fs src tp.nameStr) b) := by
          refine List.Pairwise.imp_of_mem ?_ hpw
          intro a b ha hb hne
          rw [hname1 a, hname1 b]
          by_cases has : a = src <;> by_cases hbs : b = src
          · subst has
            subst hbs
            exact absurd rfl hne
          · rw [if_pos has, if_neg hbs]
            exact (hnocol b hb).symm
          · rw [if_neg has, if_pos hbs]
            exact hnocol a ha
          · rw [if_neg has, if_neg hbs]
            exact hne
        have hnd1 : (op1.children.map
            (nodeNameOf (renameNode fs src tp.nameStr))).Nodup := by
          rw [hop1c, hopntn]
          exact List.pairwise_map.mpr hpw1
        have hsn1 : lookupN (renameNode fs src tp.nameStr) src =
            some ({ sn with name := tp.nameStr }) := by
          rw [hlk1 src, if_pos rfl]
        obtain ⟨hr1, hr2, hr3⟩ := nsRemoveList_unique hnd1 hsn1 hmem1 hrm
        refine nsContains_eq_false ?_
        intro c hcrest
        have hcch : c ∈ tn.children := by
          have h1 : c ∈ op1.children.erase src := hr2 ▸ hcrest
          have h2 := List.mem_of_mem_erase h1
          rwa [hop1c, hopntn] at h2
        have hcs : c ≠ src := fun he => hr3 (he ▸ hcrest)
        rw [hF1, hF2 c _ hcs]
        exact hnone c hcch
      · rw [if_neg hto]
        refine nsContains_eq_false ?_
        intro c hcmem
        have hcs : c ≠ src := by
          intro he
          obtain ⟨nj, hnj, hnjp⟩ := wf_child_parent hw htn (he ▸ hcmem)
          rw [hsn] at hnj
          cases Option.some.inj hnj
          rw [hpar] at hnjp
          exact hto (Option.some.inj hnjp.symm)
        rw [hF1, hF2 c _ hcs]
        exact hnone c hcmem
    have hadd := nsAdd_success htn2 hsrc2 (by rw [hsrc2n]; exact hcont2)
    rw [hadd]

/-- C1: `move_node` is atomic on names and parent pointers.  Whenever it
raises, every node's name and parent attribute are exactly what they were
before the call; in particular the rename branch, which mutates `source.name`
before reparenting, can only be reached when the subsequent reparent succeeds
on a well-formed tree, so an overwritten name is never left behind.  (The
source node may still have been detached from its old parent's NodeSet, an
effect of `set_parent` recorded separately with C6.) -/
theorem c1_failed_move_preserves_names_and_parents {fs fs' : FS} {sp tp : PyPath}
    {e : Err} (hw : WfFS fs) (hmv : fsMoveNode fs sp tp = (fs', some e)) :
    ∀ i, namesParents (lookupN fs' i) = namesParents (lookupN fs i) := by
  unfold fsMoveNode at hmv
  by_cases hs : sp.nameStr = ""
  · rw [if_pos hs] at hmv
    cases hmv
    intro i
    rfl
  rw [if_neg hs] at hmv
  by_cases ht : tp.nameStr = ""
  · rw [if_pos ht] at hmv
    cases hmv
    intro i
    rfl
  rw [if_neg ht] at hmv
  have hcomps : tp.comps ≠ [] := by
    intro h0
    apply ht
    unfold PyPath.nameStr
    rw [h0]
    rfl
  cases hsp : fsGetNode fs sp with
  | error e1 =>
    rw [hsp] at hmv
    cases e1 <;> (dsimp only at hmv; cases hmv; intro i; rfl)
  | ok src =>
    rw [hsp] at hmv
    dsimp only at hmv
    cases htp : fsGetNode fs tp with
    | ok tgt =>
      rw [htp] at hmv
      dsimp only at hmv
      exact moveFinish_err_preserves hmv
    | error e2 =>
      rw [htp] at hmv
      cases e2 with
      | nodeDoesNotExist m =>
        dsimp only at hmv
        cases htpp : fsGetNode fs tp.parentDir with
        | ok tgt =>
          rw [htpp] at hmv
          dsimp only at hmv
          have hok := moveRename_succeeds hw hsp hcomps htp htpp
          rw [hmv] at hok
          cases hok
        | error e3 =>
          rw [htpp] at hmv
          cases e3 <;> (dsimp only at hmv; cases hmv; intro i; rfl)
      | duplicateNodeName a => dsimp only at hmv; cases hmv; intro i; rfl
      | invalidPath a => dsimp only at hmv; cases hmv; intro i; rfl
      | attributeError a => dsimp only at hmv; cases hmv; intro i; rfl
      | valueError => dsimp only at hmv; cases hmv; intro i; rfl
      | keyError a => dsimp only at hmv; cases hmv; intro i; rfl

theorem c1_witness :
    namesParents (lookupN (fsMoveNode shDup.fs (strToPath "/a/x") (strToPath "/b")).1 3) =
      namesParents (lookupN shDup.fs 3) :=
  c1_failed_move_preserves_names_and_parents (by decide)
    (show fsMoveNode shDup.fs (strToPath "/a/x") (strToPath "/b") =
        ((fsMoveNode shDup.fs (strToPath "/a/x") (strToPath "/b")).1,
         some (Err.duplicateNodeName "x")) by decide) 3
